import Mathlib

/-!
# Verification of the Research-Assistant core (chunker + hybrid retriever)

Shallow embedding of `app/chunker.py` and `app/retriever.py`.

Conventions of the embedding:
* Python strings are Lean `String`s; character positions are character
  offsets (Python string indexing is by character).
* Python `float` scores are modelled as `ℚ` (exact arithmetic); the
  verified properties only depend on ordering and sign facts that hold
  for IEEE floats as well.
* The `while` loop of `SectionChunker.chunk_section` is modelled with an
  explicit fuel parameter, returning `none` when fuel is exhausted; the
  Python loop has no built-in bound (and in fact can diverge, see C1).
* External collaborators (the BM25 scoring library, the embedding model,
  the vector store, the cross-encoder) are parameters (oracles) of the
  corresponding functions, exactly at the call boundary the code uses.
-/

namespace ResearchAssistant

/-- Python `\s` for the ASCII range (re module whitespace class). -/
def pySpace (c : Char) : Bool :=
  c = ' ' || c = '\t' || c = '\n' || c = '\r' || c = '\x0b' || c = '\x0c'

/-- Python `str.strip()` on a character list. -/
def pyStripL (cs : List Char) : List Char :=
  ((cs.dropWhile pySpace).reverse.dropWhile pySpace).reverse

/-- Python `str.strip()`. -/
def pyStrip (s : String) : String :=
  String.mk (pyStripL s.data)

/-- Sentence-final punctuation used by `_SENTENCE_BOUNDARY`'s lookbehind
`(?<=[.!?])`: checks the head of the reversed accumulator (i.e. the
previously consumed character). -/
def sentEndHead : List Char → Bool
  | [] => false
  | p :: _ => p = '.' || p = '!' || p = '?'

/-- Worker for `_split_sentences`: walks the text, cutting at each
maximal whitespace run that is preceded by `.`, `!` or `?`
(the regex `(?<=[.!?])(?:\s+)` used with `re.split`). `cur` is the
current fragment, reversed; `skipping` is true while consuming the
remainder of a matched whitespace separator (so the whole run is the
separator, as with the greedy `\s+`). -/
def splitSentencesAux (skipping : Bool) (cur : List Char) : List Char → List (List Char)
  | [] => [cur.reverse]
  | c :: rest =>
    if skipping && pySpace c then splitSentencesAux true cur rest
    else if pySpace c && sentEndHead cur then
      cur.reverse :: splitSentencesAux true [] rest
    else
      splitSentencesAux false (c :: cur) rest

/-- `_split_sentences`: split on punctuation+whitespace boundaries, strip
each fragment, drop empty fragments. -/
def _split_sentences (text : String) : List String :=
  ((splitSentencesAux false [] text.data).map (fun cs => pyStrip (String.mk cs))).filter
    (fun s => s ≠ "")

/-- Character length of the space-joined text of a sentence run:
sum of sentence lengths plus one separator per join. -/
def joinedLen (l : List String) : ℕ :=
  (l.map String.length).sum + (l.length - 1)

/-- `" ".join(l)`: the sentences joined with a single-space separator. -/
def joinSp : List String → String
  | [] => ""
  | [s] => s
  | s :: rest => s ++ " " ++ joinSp rest

/-- Backward overlap walk of `chunk_section` (the `for s in
reversed(current_sentences)` loop): processes the reversed sentence run,
inserting whole sentences at the front of the seed until the cumulative
length (with separators) would exceed `oc` (`overlap_chars`). -/
def overlapAux (oc : ℕ) (acc : List String) (accLen : ℕ) : List String → List String × ℕ
  | [] => (acc, accLen)
  | s :: rest =>
    if accLen + s.length + (if acc = [] then 0 else 1) > oc then (acc, accLen)
    else overlapAux oc (s :: acc)
      (accLen + s.length + (if (s :: acc).length > 1 then 1 else 0)) rest

/-- The overlap seed computed after emitting `cur` as a chunk. -/
def computeOverlap (oc : ℕ) (cur : List String) : List String :=
  (overlapAux oc [] 0 cur.reverse).1

/-- `int(chunk_size * overlap_ratio)` (truncation of a non-negative
product = floor; `Rat.floor` is used so the definition kernel-reduces,
and agrees with `⌊⌋` by `Rat.floor_def`). -/
def overlapChars (chunkSize : ℕ) (frac : ℚ) : ℕ :=
  (Rat.floor ((chunkSize : ℚ) * frac)).toNat

/-- `overlapChars` is the floor of the product. -/
lemma overlapChars_eq_floor (chunkSize : ℕ) (frac : ℚ) :
    overlapChars chunkSize frac = (⌊(chunkSize : ℚ) * frac⌋).toNat := by
  rw [overlapChars, Rat.floor_def, Rat.floor_def']

/-- The `while i < len(sentences)` loop of `chunk_section`, with fuel.
State: `i` (sentence index), `cur` (`current_sentences`), `curLen`
(`current_len`), `acc` (sentence runs of the chunks emitted so far).
Returns `none` when fuel runs out before the loop exits. The final
flush of a pending non-empty `cur` is included. -/
def chunkLoop (chunkSize oc : ℕ) (sentences : List String) :
    ℕ → ℕ → List String → ℕ → List (List String) → Option (List (List String))
  | 0, _, _, _, _ => none
  | fuel + 1, i, cur, curLen, acc =>
    if h : i < sentences.length then
      let sentence := sentences.get ⟨i, h⟩
      let projected := curLen + sentence.length + (if cur = [] then 0 else 1)
      if projected ≤ chunkSize ∨ cur = [] then
        chunkLoop chunkSize oc sentences fuel (i + 1) (cur ++ [sentence]) projected acc
      else
        let seed := computeOverlap oc cur
        chunkLoop chunkSize oc sentences fuel i seed
          ((seed.map String.length).sum + (seed.length - 1)) (acc ++ [cur])
    else
      some (if cur = [] then acc else acc ++ [cur])

/-- `chunk_section` at the level of sentence runs: split into sentences,
return `[]` on no sentences, otherwise run the assembly loop. -/
def chunk_section_sents (fuel chunkSize : ℕ) (frac : ℚ) (sectionText : String) :
    Option (List (List String)) :=
  if _split_sentences sectionText = [] then some []
  else
    chunkLoop chunkSize (overlapChars chunkSize frac) (_split_sentences sectionText)
      fuel 0 [] 0 []

/-- A chunk record: `{"text", "section", "source", "chunk_id"}`. -/
structure Chunk where
  text : String
  sectionName : String
  source : String
  chunk_id : ℕ
deriving Repr, DecidableEq

/-- `SectionChunker.chunk_section`: chunk one section's text.
`selfChunkSize`/`frac` are the constructor parameters
(`self.chunk_size`, `self.overlap_ratio`); `effectiveChunkSize`
is the optional per-call override. Chunk ids are assigned
sequentially from `startId`, one per emitted chunk. -/
def chunk_section (fuel selfChunkSize : ℕ) (frac : ℚ)
    (sectionText sectionName source : String) (startId : ℕ)
    (effectiveChunkSize : Option ℕ) : Option (List Chunk) :=
  match chunk_section_sents fuel (effectiveChunkSize.getD selfChunkSize) frac sectionText with
  | none => none
  | some runs =>
      some (runs.enum.map (fun ic => ⟨joinSp ic.2, sectionName, source, startId + ic.1⟩))

/-! ## Section-header patterns (`_SECTION_PATTERNS`)

Each source pattern has the shape `^<body>$` with `re.IGNORECASE |
re.MULTILINE`. Every body is built from character-class repetitions,
literals, one optional numbering group and small alternations; since
Python's backtracking tries alternation branches left to right and an
optional group greedily (present first), each body is equivalent to an
ORDERED list of group-free alternative sequences (distributing
`(A|B)?X` to `AX | BX | X` preserves both the language and, for these
patterns, the reported match span: the branches are pairwise mutually
exclusive at any given start position, because each branch demands a
different non-whitespace character after the forced whitespace runs).
We embed each pattern as that list of flat sequences and run a
backtracking matcher with Python's semantics: greedy quantifiers,
branches in order, leftmost match wins, and `finditer` resumes
scanning at the end of the previous match. -/

/-- A flat regex atom: a greedy character-class repetition with a
minimum count (`X*` / `X+`), or a case-insensitive literal. -/
inductive SAtom where
  | cls (p : Char → Bool) (minRep : ℕ)
  | lit (s : List Char)

/-- Case-insensitive character comparison (`re.IGNORECASE`). -/
def lowerEq (a b : Char) : Bool := a.toLower = b.toLower

/-- Match a literal (case-insensitively) against a prefix of the text,
returning the rest. -/
def litMatch : List Char → List Char → Option (List Char)
  | [], cs => some cs
  | _ :: _, [] => none
  | l :: ls, c :: cs => if lowerEq l c then litMatch ls cs else none

/-- Greedy repetition: try consuming `j` characters first, then back off
one character at a time down to `minRep`. -/
def tryCounts (k : List Char → Option (List Char)) (cs : List Char) (minRep : ℕ) :
    ℕ → Option (List Char)
  | 0 => if minRep = 0 then k cs else none
  | j + 1 =>
    if j + 1 < minRep then none
    else (k (cs.drop (j + 1))).orElse (fun _ => tryCounts k cs minRep j)

/-- Backtracking matcher for one flat sequence, in continuation-passing
style. The continuation receives the unconsumed suffix; `none`
propagates failure back into the quantifier choices, reproducing
Python's backtracking. -/
def matchSeq : List SAtom → List Char → (List Char → Option (List Char)) →
    Option (List Char)
  | [], cs, k => k cs
  | SAtom.cls p minRep :: rest, cs, k =>
      tryCounts (fun cs2 => matchSeq rest cs2 k) cs minRep (cs.takeWhile p).length
  | SAtom.lit s :: rest, cs, k =>
      match litMatch s cs with
      | none => none
      | some cs2 => matchSeq rest cs2 k

/-- Try the alternative sequences of a pattern in order (Python
alternation order). -/
def matchAlts : List (List SAtom) → List Char → (List Char → Option (List Char)) →
    Option (List Char)
  | [], _, _ => none
  | sq :: rest, cs, k => (matchSeq sq cs k).orElse (fun _ => matchAlts rest cs k)

/-- The `$` anchor under `re.MULTILINE`: end of text or before a
newline. -/
def dollarOk : List Char → Bool
  | [] => true
  | c :: _ => c = '\n'

/-- Try to match `^<body>$` starting exactly at the given suffix;
returns the number of characters consumed on success. -/
def matchHeaderAt (alts : List (List SAtom)) (suffix : List Char) : Option ℕ :=
  match matchAlts alts suffix (fun rest => if dollarOk rest then some rest else none) with
  | none => none
  | some rest => some (suffix.length - rest.length)

/-- The `^` anchor under `re.MULTILINE`: position 0 or preceded by a
newline. -/
def lineStart (chars : List Char) (p : ℕ) : Bool :=
  p = 0 || chars.get? (p - 1) = some '\n'

/-- Scan for the leftmost match whose start is `≥ pos` (Python
`re.search` behaviour for a `^`-anchored pattern). Returns
`(start, end)` character offsets. -/
def findFrom (alts : List (List SAtom)) (chars : List Char) : ℕ → ℕ → Option (ℕ × ℕ)
  | 0, _ => none
  | fuel + 1, pos =>
    if pos > chars.length then none
    else if lineStart chars pos then
      match matchHeaderAt alts (chars.drop pos) with
      | some len => some (pos, pos + len)
      | none => findFrom alts chars fuel (pos + 1)
    else findFrom alts chars fuel (pos + 1)

/-- `pattern.finditer(text)`: non-overlapping matches scanned left to
right, resuming each search at the end of the previous match. -/
def findAllAux (alts : List (List SAtom)) (chars : List Char) : ℕ → ℕ → List (ℕ × ℕ)
  | 0, _ => []
  | fuel + 1, pos =>
    match findFrom alts chars (chars.length + 1 - pos) pos with
    | none => []
    | some (s, e) =>
        (s, e) :: findAllAux alts chars fuel (if e > pos then e else pos + 1)

/-- All matches of one pattern in the text. -/
def finditer (alts : List (List SAtom)) (chars : List Char) : List (ℕ × ℕ) :=
  findAllAux alts chars (chars.length + 1) 0

/-- `[0-9]`. -/
def isDigitCh (c : Char) : Bool := '0' ≤ c && c ≤ '9'

/-- `[IVX]` under `re.IGNORECASE`. -/
def isRomanCh (c : Char) : Bool :=
  c.toLower = 'i' || c.toLower = 'v' || c.toLower = 'x'

/-- `[.\s]`. -/
def dotSpace (c : Char) : Bool := c = '.' || pySpace c

/-- `[\s]*` (`m = 0`) or `[\s]+` (`m = 1`). -/
def wsS (m : ℕ) : SAtom := SAtom.cls pySpace m

/-- A case-insensitive literal atom. -/
def litS (s : String) : SAtom := SAtom.lit s.data

/-- The branches of the optional numbering
`(?:[0-9]+[.\s]*|[IVX]+[.\s]+)?`, in Python's backtracking order:
digits, romans, absent. -/
def numPreAlts : List (List SAtom) :=
  [[SAtom.cls isDigitCh 1, SAtom.cls dotSpace 0],
   [SAtom.cls isRomanCh 1, SAtom.cls dotSpace 1],
   []]

/-- Assemble a numbered-header pattern
`^[\s]*(?:[0-9]+[.\s]*|[IVX]+[.\s]+)?<core>[\s]*$` from the ordered
core alternatives: the numbering branches vary slowest (outer), the
core branches fastest, matching the distribution of the original
nesting. -/
def numberedHeader (cores : List (List SAtom)) : List (List SAtom) :=
  (numPreAlts.map (fun pre =>
    cores.map (fun core => wsS 0 :: pre ++ core ++ [wsS 0]))).flatten

/-- `_SECTION_PATTERNS`: the ten `(pattern, canonical-name)` pairs, in
source order; each pattern is its ordered list of flat alternative
sequences. -/
def sectionPatterns : List (List (List SAtom) × String) :=
  [([[wsS 0, litS "abstract", wsS 0]], "Abstract"),
   (numberedHeader [[litS "introduction"]], "Introduction"),
   (numberedHeader [[litS "background"]], "Background"),
   (numberedHeader [[litS "related", wsS 1, litS "work"]], "Related Work"),
   (numberedHeader [[litS "methods"], [litS "method"], [litS "methodology"]], "Methods"),
   (numberedHeader [[litS "results", wsS 1, litS "and", wsS 1, litS "discussion"],
     [litS "results"]], "Results"),
   (numberedHeader [[litS "discussion"]], "Discussion"),
   (numberedHeader [[litS "conclusions"], [litS "conclusion"]], "Conclusion"),
   (numberedHeader [[litS "limitations"], [litS "limitation"]], "Limitations"),
   (numberedHeader [[litS "references"], [litS "bibliography"]], "References")]

/-- All matches across all patterns, tagged with the canonical section
name, in pattern-then-position order (as the Python collection loop
produces them, before sorting). -/
def collectMatches (chars : List Char) : List (ℕ × ℕ × String) :=
  (sectionPatterns.map (fun pn =>
    (finditer pn.1 chars).map (fun se => (se.1, se.2, pn.2)))).flatten

/-- A detected section: `{"section": name, "text": content}`. -/
structure Sect where
  name : String
  text : String
deriving Repr, DecidableEq

/-- Build the section list from the sorted match list: each match's
content runs from its end offset to the next match's start (or to the
end of the document); whitespace-only contents are dropped. -/
def buildSections (chars : List Char) : List (ℕ × ℕ × String) → List Sect
  | [] => []
  | (_, e, name) :: rest =>
    let endPos := match rest with
      | [] => chars.length
      | (s2, _, _) :: _ => s2
    let content := pyStrip (String.mk ((chars.drop e).take (endPos - e)))
    (if content = "" then [] else [⟨name, content⟩]) ++ buildSections chars rest

/-- `SectionChunker.detect_sections`. -/
def detect_sections (text : String) : List Sect :=
  let chars := text.data
  let ms := collectMatches chars
  if ms = [] then [⟨"Full Text", text⟩]
  else
    let sorted := ms.insertionSort (fun a b => a.1 ≤ b.1)
    let preText := pyStrip (String.mk (chars.take ((sorted.headI).1)))
    (if preText = "" then [] else [⟨"Preamble", preText⟩]) ++ buildSections chars sorted

/-- `SECTION_CHUNK_SIZES`: the per-section chunk-size override table. -/
def SECTION_CHUNK_SIZES : List (String × ℕ) :=
  [("Abstract", 2000), ("Methods", 1000), ("Methodology", 1000), ("Results", 800)]

/-- `DEFAULT_CHUNK_SIZE` (also the `chunk_size` constructor default). -/
def DEFAULT_CHUNK_SIZE : ℕ := 500

/-- The per-section loop of `chunk_paper`, carrying the running id. -/
def chunkPaperGo (fuel selfChunkSize : ℕ) (frac : ℚ) (source : String) :
    List Sect → ℕ → Option (List Chunk)
  | [], _ => some []
  | sec :: rest, runningId =>
    let effectiveSize := (List.lookup sec.name SECTION_CHUNK_SIZES).getD selfChunkSize
    match chunk_section fuel selfChunkSize frac sec.text sec.name source runningId
        (some effectiveSize) with
    | none => none
    | some newChunks =>
      match chunkPaperGo fuel selfChunkSize frac source rest (runningId + newChunks.length) with
      | none => none
      | some more => some (newChunks ++ more)

/-- `SectionChunker.chunk_paper`: detect sections, chunk each in order
with its effective size, carrying a single running `chunk_id`. -/
def chunk_paper (fuel selfChunkSize : ℕ) (frac : ℚ) (text source : String) :
    Option (List Chunk) :=
  chunkPaperGo fuel selfChunkSize frac source (detect_sections text) 0

/-! ## Hybrid retriever (`app/retriever.py`)

`HybridRetriever` is embedded with its external collaborators as
parameters: the BM25 scoring function of `rank_bm25` (`getScores`), the
vector store's query response (four parallel lists), and the
cross-encoder (`ce`). Result dicts are records; the optional
`"section"` key (never written by any producer in the code) is an
`Option String` field. -/

/-- A transient ranked-result dict: keys `text`, `source`, `score`,
`id`; `sectionKey` models the (absent) `"section"` key. -/
structure Cand where
  text : String
  source : String
  score : ℚ
  id : String
  sectionKey : Option String := none
deriving Repr, DecidableEq

/-- A final output dict of `search`: keys `text`, `source`, `distance`,
`section`, `retrieval_method`. -/
structure FinalResult where
  text : String
  source : String
  distance : ℚ
  sectionName : String
  retrieval_method : String
deriving Repr, DecidableEq

/-- Python `str.split()` (whitespace runs, empties discarded). -/
def pySplitWs (s : String) : List String :=
  (s.split (fun c => pySpace c)).filter (fun t => t ≠ "")

/-- Lowercased whitespace tokenization used for both corpus and
queries. -/
def tokenize (s : String) : List String := pySplitWs s.toLower

/-- The state set up by `__init__` / `build_bm25_index`: the optional
BM25 index (modelled by the tokenized corpus it was built over) and the
parallel doc/metadata/id lists. `metadatas` holds each document's
`"source"` metadata value (`none` when the key is missing). -/
structure BM25Data where
  index : Option (List (List String))
  docs : List String
  metadatas : List (Option String)
  ids : List String

/-- `build_bm25_index`, with the collection's `get` response as input:
stores docs/metadatas/ids, and sets the index to `None` when there are
no documents. -/
def build_bm25_index (docs : List String) (metadatas : List (Option String))
    (ids : List String) : BM25Data :=
  if docs = [] then ⟨none, docs, metadatas, ids⟩
  else ⟨some (docs.map tokenize), docs, metadatas, ids⟩

/-- Sort descending by a ℚ-valued key (`sorted(..., key=f, reverse=True)`;
both are stable, so they agree). -/
def byKeyDesc {α : Type} (f : α → ℚ) : α → α → Prop := fun a b => f b ≤ f a

instance {α : Type} (f : α → ℚ) : DecidableRel (byKeyDesc f) :=
  fun a b => inferInstanceAs (Decidable (f b ≤ f a))

instance {α : Type} (f : α → ℚ) : IsTotal α (byKeyDesc f) :=
  ⟨fun a b => le_total (f b) (f a)⟩

instance {α : Type} (f : α → ℚ) : IsTrans α (byKeyDesc f) :=
  ⟨fun _ _ _ h1 h2 => le_trans h2 h1⟩

/-- `scores[i]` (always in range in the Python code). -/
def scoreAt (scores : List ℚ) (i : ℕ) : ℚ := scores.getD i 0

/-- `HybridRetriever.bm25_search`: returns `[]` if no index was built or
the corpus is empty; otherwise scores every document with the external
BM25 scorer, takes the top `n` indices by score (stable descending),
skips non-positive scores, and builds result dicts. -/
def bm25_search (d : BM25Data) (getScores : List (List String) → List String → List ℚ)
    (query : String) (n : ℕ) : List Cand :=
  match d.index with
  | none => []
  | some corpus =>
    if d.docs = [] then []
    else
      let scores := getScores corpus (tokenize query)
      let scoredIndices :=
        ((List.range scores.length).insertionSort (byKeyDesc (scoreAt scores))).take n
      (scoredIndices.filter (fun i => ¬ scoreAt scores i ≤ 0)).map (fun i =>
        { text := d.docs.getD i ""
          source := (d.metadatas.getD i none).getD "unknown"
          score := scoreAt scores i
          id := d.ids.getD i "" })

/-- `HybridRetriever.vector_search`, with the vector store's query
response (parallel `documents`/`metadatas`/`distances`/`ids` lists) as
input: each distance `dist` becomes score `1 / (1 + dist)`. -/
def vector_search (vdocs : List String) (vmetas : List (Option String))
    (vdists : List ℚ) (vids : List String) : List Cand :=
  vdocs.enum.map (fun p =>
    { text := p.2
      source := if p.1 < vmetas.length then (vmetas.getD p.1 none).getD "unknown"
                else "unknown"
      score := if p.1 < vdists.length then 1 / (1 + vdists.getD p.1 0) else 0
      id := vids.getD p.1 "" })

/-- `result.get("id") or result.get("text", "")[:100]`: the dedup key
(`id`, or the first 100 characters of the text when `id` is falsy). -/
def docKey (c : Cand) : String :=
  if c.id ≠ "" then c.id else String.mk (c.text.data.take 100)

/-- `fused_scores[doc_id] = fused_scores.get(doc_id, 0.0) + v`: Python
dict update (keeps the key's insertion position; appends new keys). -/
def bumpScore : List (String × ℚ) → String → ℚ → List (String × ℚ)
  | [], key, v => [(key, v)]
  | p :: rest, key, v =>
    if p.1 = key then (p.1, p.2 + v) :: rest else p :: bumpScore rest key v

/-- `if doc_id not in doc_map: doc_map[doc_id] = result`: first-wins
insert. -/
def mapInsert : List (String × Cand) → String → Cand → List (String × Cand)
  | [], key, c => [(key, c)]
  | p :: rest, key, c =>
    if p.1 = key then p :: rest else p :: mapInsert rest key c

/-- Value lookup in the fused-scores dict (`0` default, as in
`fused_scores.get(doc_id, 0.0)`). -/
def lookupQ (m : List (String × ℚ)) (key : String) : ℚ :=
  (List.lookup key m).getD 0

/-- The inner `for rank, result in enumerate(results, start=1)` loop of
`reciprocal_rank_fusion`, folded over one result list. -/
def rrfFold (k : ℕ) (st : List (String × ℚ) × List (String × Cand))
    (results : List Cand) : List (String × ℚ) × List (String × Cand) :=
  results.enum.foldl (fun st p =>
    let key := docKey p.2
    (bumpScore st.1 key (1 / ((k : ℚ) + (p.1 + 1))), mapInsert st.2 key p.2)) st

/-- `HybridRetriever.reciprocal_rank_fusion`: sum `1/(k + rank)` per
unique key across all lists, then emit one entry per key (the first
dict stored for it, with the fused score), sorted by fused score
descending (stable). -/
def reciprocal_rank_fusion (results_list : List (List Cand)) (k : ℕ) : List Cand :=
  let st := results_list.foldl (rrfFold k) ([], [])
  let sortedIds := (st.1.map Prod.fst).insertionSort (byKeyDesc (lookupQ st.1))
  sortedIds.filterMap (fun key =>
    match List.lookup key st.2 with
    | some c => some { c with score := lookupQ st.1 key }
    | none => none)

/-- `HybridRetriever.rerank`: empty in, empty out; otherwise overwrite
each candidate's score with the cross-encoder score, sort descending
(stable) and truncate to `top_k`. -/
def rerank (ce : String → String → ℚ) (query : String) (candidates : List Cand)
    (topK : ℕ) : List Cand :=
  if candidates = [] then []
  else
    let scored := candidates.map (fun c => { c with score := ce query c.text })
    (scored.insertionSort (byKeyDesc Cand.score)).take topK

/-- `min` of a nonempty score list (Python `min`). -/
def listMin : List ℚ → ℚ
  | [] => 0
  | x :: xs => xs.foldl min x

/-- `max` of a nonempty score list (Python `max`). -/
def listMax : List ℚ → ℚ
  | [] => 0
  | x :: xs => xs.foldl max x

/-- Min-max normalization of the reranked scores: `(s - min) / range`
when the range is positive, otherwise `1.0` for every entry. -/
def normalizeScores (raw : List ℚ) : List ℚ :=
  let mn := listMin raw
  let mx := listMax raw
  if 0 < mx - mn then raw.map (fun s => (s - mn) / (mx - mn))
  else raw.map (fun _ => 1)

/-- The output-building tail of `search`: pair each reranked candidate
with its normalized score and emit the final dict with
`distance = 1 - normalized` and `section = result.get("section", "")`. -/
def normalizeStage (method : String) (reranked : List Cand) : List FinalResult :=
  let normalized := if reranked = [] then [] else normalizeScores (reranked.map Cand.score)
  (reranked.zip normalized).map (fun p =>
    ⟨p.1.text, p.1.source, 1 - p.2, (p.1.sectionKey).getD "", method⟩)

/-- The fused candidate list of `search` (fusion, or vector-only
fallback when BM25 returned nothing). -/
def searchFused (d : BM25Data) (getScores : List (List String) → List String → List ℚ)
    (vdocs : List String) (vmetas : List (Option String)) (vdists : List ℚ)
    (vids : List String) (query : String) : List Cand :=
  let bm25Results := bm25_search d getScores query 20
  let vectorResults := vector_search vdocs vmetas vdists vids
  if bm25Results = [] then vectorResults
  else reciprocal_rank_fusion [bm25Results, vectorResults] 60

/-- The `retrieval_method` tag of `search`. -/
def searchMethod (d : BM25Data) (getScores : List (List String) → List String → List ℚ)
    (query : String) : String :=
  if bm25_search d getScores query 20 = [] then "vector_only" else "hybrid"

/-- The reranked candidate list of `search`. -/
def searchReranked (d : BM25Data) (getScores : List (List String) → List String → List ℚ)
    (vdocs : List String) (vmetas : List (Option String)) (vdists : List ℚ)
    (vids : List String) (ce : String → String → ℚ) (query : String)
    (nResults : ℕ) : List Cand :=
  rerank ce query (searchFused d getScores vdocs vmetas vdists vids query) nResults

/-- `HybridRetriever.search`: BM25 + vector search, fuse or fall back,
rerank, min-max normalize, build final output. -/
def search (d : BM25Data) (getScores : List (List String) → List String → List ℚ)
    (vdocs : List String) (vmetas : List (Option String)) (vdists : List ℚ)
    (vids : List String) (ce : String → String → ℚ) (query : String)
    (nResults : ℕ) : List FinalResult :=
  normalizeStage (searchMethod d getScores query)
    (searchReranked d getScores vdocs vmetas vdists vids ce query nResults)

/-! ## C1: the assembly loop does NOT terminate on every input

With `chunk_size = 20`, `overlap_ratio = 1/2` (so `overlap_chars = 10`)
and sentences `["abcd.", "xxxxxxxxxxxxxxxx"]`, the loop accepts
`"abcd."`, then the 16-character sentence does not fit
(`5 + 16 + 1 > 20`); the chunk `["abcd."]` is emitted and the overlap
walk retains all of it (`5 ≤ 10`), so the loop re-enters the identical
state `(i = 1, current = ["abcd."], current_len = 5)` and emits the
seed forever without advancing `i`. -/

/-- From the stalled state, the loop never exits, for any amount of
fuel: every iteration re-emits the seed and returns to the same
`(i, current, current_len)`. -/
lemma c1_stall (fuel : ℕ) : ∀ acc,
    chunkLoop 20 10 ["abcd.", "xxxxxxxxxxxxxxxx"] fuel 1 ["abcd."] 5 acc = none := by
  induction fuel with
  | zero => intro acc; rfl
  | succ n ih =>
    intro acc
    simp only [chunkLoop]
    norm_num
    exact ih _

/-- The stalled state is reached from the initial state after one
accepting step, so the whole sentence-level run exhausts any fuel. -/
lemma c1_sents (fuel : ℕ) :
    chunk_section_sents fuel 20 (1/2 : ℚ) "abcd. xxxxxxxxxxxxxxxx" = none := by
  have hoc : overlapChars 20 (1/2 : ℚ) = 10 := by
    norm_num [overlapChars, Rat.floor_def']
    rfl
  have hsp : _split_sentences "abcd. xxxxxxxxxxxxxxxx" = ["abcd.", "xxxxxxxxxxxxxxxx"] := by
    decide
  rw [chunk_section_sents]
  simp only [hsp, hoc]
  cases fuel with
  | zero => rfl
  | succ n =>
    simp only [chunkLoop]
    norm_num
    exact c1_stall n _

/-- C1: the claim "`chunk_section` terminates on every input with
`chunk_size ≥ 1` and `overlap_ratio ∈ [0, 1)`" is FALSE of the code:
on section text `"abcd. xxxxxxxxxxxxxxxx"` with `chunk_size = 20` and
`overlap_ratio = 1/2` the assembly loop never exits — the fueled
embedding returns `none` for EVERY fuel bound. The first-sentence
exception prevents stalling only when the current chunk is empty; a
non-empty overlap seed that fits the overlap budget recreates itself
verbatim, so the loop stalls without progress. -/
theorem c1_chunk_section_diverges (fuel : ℕ) :
    chunk_section fuel 20 (1/2 : ℚ) "abcd. xxxxxxxxxxxxxxxx" "Sec" "src" 0 none = none := by
  rw [chunk_section]
  simp only [Option.getD]
  rw [c1_sents fuel]

/-! ## C8: no header matches ⇒ single "Full Text" section -/

/-- C8: if no section-header pattern matches anywhere in the document,
`detect_sections` returns exactly one section, named `"Full Text"`,
whose text is the entire input, completely unmodified; no error path
exists (the function is total). -/
theorem c8_no_headers_full_text (text : String)
    (h : collectMatches text.data = []) :
    detect_sections text = [⟨"Full Text", text⟩] := by
  rw [detect_sections]
  simp [h]

/-- Witness for C8 at a concrete headerless document. -/
theorem c8_no_headers_full_text_witness :
    collectMatches ("One. Two.").data = [] ∧
      detect_sections "One. Two." = [⟨"Full Text", "One. Two."⟩] :=
  ⟨by decide, c8_no_headers_full_text "One. Two." (by decide)⟩

/-! ## Overlap-walk lemmas -/

lemma joinedLen_nil : joinedLen [] = 0 := rfl

lemma joinedLen_cons (s : String) (l : List String) :
    joinedLen (s :: l) = joinedLen l + s.length + (if l = [] then 0 else 1) := by
  cases l with
  | nil => simp [joinedLen]
  | cons t r => simp [joinedLen]; omega

lemma joinedLen_append_single (cur : List String) (s : String) :
    joinedLen (cur ++ [s]) = joinedLen cur + s.length + (if cur = [] then 0 else 1) := by
  cases cur with
  | nil => simp [joinedLen]
  | cons t r =>
    simp only [joinedLen, List.map_append, List.sum_append, List.length_append]
    simp
    omega

lemma joinedLen_suffix_le (xs ys : List String) :
    joinedLen ys ≤ joinedLen (xs ++ ys) := by
  simp only [joinedLen, List.map_append, List.sum_append, List.length_append]
  omega

lemma overlapAux_invariant (oc : ℕ) : ∀ (rl acc : List String) (accLen : ℕ),
    accLen = joinedLen acc → joinedLen acc ≤ oc →
    (overlapAux oc acc accLen rl).2 = joinedLen (overlapAux oc acc accLen rl).1 ∧
    joinedLen (overlapAux oc acc accLen rl).1 ≤ oc ∧
    ∃ p, p <+: rl ∧ (overlapAux oc acc accLen rl).1 = p.reverse ++ acc := by
  intro rl
  induction rl with
  | nil =>
    intro acc accLen he hacc
    subst he
    exact ⟨rfl, hacc, [], List.nil_prefix, by simp [overlapAux]⟩
  | cons s rest ih =>
    intro acc accLen he hacc
    subst he
    rw [overlapAux]
    have hupd : joinedLen acc + s.length + (if (s :: acc).length > 1 then 1 else 0)
        = joinedLen (s :: acc) := by
      rw [joinedLen_cons]
      cases acc <;> simp
    by_cases hc : joinedLen acc + s.length + (if acc = [] then 0 else 1) > oc
    · rw [if_pos hc]
      exact ⟨rfl, hacc, [], List.nil_prefix, by simp⟩
    · rw [if_neg hc, hupd]
      have hle : joinedLen (s :: acc) ≤ oc := by rw [joinedLen_cons]; omega
      obtain ⟨h1, h2, p, hp, heq⟩ := ih (s :: acc) _ rfl hle
      refine ⟨h1, h2, s :: p, List.cons_prefix_cons.mpr ⟨rfl, hp⟩, ?_⟩
      rw [heq]
      simp

lemma computeOverlap_joinedLen_le (oc : ℕ) (cur : List String) :
    joinedLen (computeOverlap oc cur) ≤ oc :=
  (overlapAux_invariant oc cur.reverse [] 0 rfl (Nat.zero_le oc)).2.1

lemma computeOverlap_isSuffix (oc : ℕ) (cur : List String) :
    computeOverlap oc cur <:+ cur := by
  obtain ⟨-, -, p, hp, heq⟩ := overlapAux_invariant oc cur.reverse [] 0 rfl (Nat.zero_le oc)
  obtain ⟨t, ht⟩ := hp
  refine ⟨t.reverse, ?_⟩
  rw [computeOverlap, heq]
  have h2 := congrArg List.reverse ht
  simp only [List.reverse_append, List.reverse_reverse] at h2
  simpa using h2

lemma computeOverlap_of_le (oc : ℕ) : ∀ (rl acc : List String) (accLen : ℕ),
    accLen = joinedLen acc → joinedLen (rl.reverse ++ acc) ≤ oc →
    (overlapAux oc acc accLen rl).1 = rl.reverse ++ acc := by
  intro rl
  induction rl with
  | nil =>
    intro acc accLen he _
    simp [overlapAux]
  | cons s rest ih =>
    intro acc accLen he hall
    subst he
    rw [overlapAux]
    have hupd : joinedLen acc + s.length + (if (s :: acc).length > 1 then 1 else 0)
        = joinedLen (s :: acc) := by
      rw [joinedLen_cons]
      cases acc <;> simp
    have hrw : (s :: rest).reverse ++ acc = rest.reverse ++ (s :: acc) := by simp
    rw [hrw] at hall
    have hsle : joinedLen (s :: acc) ≤ oc :=
      le_trans (joinedLen_suffix_le rest.reverse (s :: acc)) hall
    have hnc : ¬ (joinedLen acc + s.length + (if acc = [] then 0 else 1) > oc) := by
      rw [joinedLen_cons] at hsle
      omega
    rw [if_neg hnc, hupd, ih (s :: acc) _ rfl hall, hrw]

lemma computeOverlap_full (oc : ℕ) (l : List String) (h : joinedLen l ≤ oc) :
    computeOverlap oc l = l := by
  rw [computeOverlap, computeOverlap_of_le oc l.reverse [] 0 rfl (by simpa using h)]
  simp

lemma computeOverlap_idem (oc : ℕ) (l : List String) :
    computeOverlap oc (computeOverlap oc l) = computeOverlap oc l :=
  computeOverlap_full oc _ (computeOverlap_joinedLen_le oc l)

/-! ## C4: chunk size bound -/

lemma joinSp_length : ∀ l : List String, (joinSp l).length = joinedLen l
  | [] => rfl
  | [s] => by
    show s.length = joinedLen [s]
    simp [joinedLen]
  | s :: t :: r => by
    have ih := joinSp_length (t :: r)
    show (s ++ " " ++ joinSp (t :: r)).length = joinedLen (s :: t :: r)
    simp only [String.length_append]
    rw [ih]
    have hsp : " ".length = 1 := rfl
    simp only [joinedLen, List.map_cons, List.sum_cons, List.length_cons]
    omega

lemma chunkLoop_bound (cs oc : ℕ) (hoc : oc ≤ cs) (ss : List String) :
    ∀ fuel i cur curLen acc out,
      curLen = joinedLen cur →
      (joinedLen cur ≤ cs ∨ cur.length = 1) →
      (∀ s ∈ cur, s ∈ ss) →
      (∀ c ∈ acc, (joinedLen c ≤ cs ∨ c.length = 1) ∧ ∀ s ∈ c, s ∈ ss) →
      chunkLoop cs oc ss fuel i cur curLen acc = some out →
      ∀ c ∈ out, (joinedLen c ≤ cs ∨ c.length = 1) ∧ ∀ s ∈ c, s ∈ ss := by
  intro fuel
  induction fuel with
  | zero =>
    intro i cur curLen acc out _ _ _ _ h
    exact absurd h (by simp [chunkLoop])
  | succ n ih =>
    intro i cur curLen acc out hlen hbound hmem hacc hrun
    rw [chunkLoop] at hrun
    split at hrun
    case isTrue h =>
      by_cases hcond :
          curLen + (ss.get ⟨i, h⟩).length + (if cur = [] then 0 else 1) ≤ cs ∨ cur = []
      · rw [if_pos hcond] at hrun
        refine ih (i + 1) (cur ++ [ss.get ⟨i, h⟩]) _ acc out ?_ ?_ ?_ hacc hrun
        · rw [joinedLen_append_single, hlen]
        · rcases hcond with hc | hc
          · left
            rw [joinedLen_append_single, ← hlen]
            exact hc
          · right
            subst hc
            rfl
        · intro s hs
          rcases List.mem_append.mp hs with h1 | h1
          · exact hmem s h1
          · rw [List.mem_singleton.mp h1]
            exact List.get_mem ss i h
      · rw [if_neg hcond] at hrun
        refine ih i (computeOverlap oc cur) _ (acc ++ [cur]) out rfl ?_ ?_ ?_ hrun
        · exact Or.inl (le_trans (computeOverlap_joinedLen_le oc cur) hoc)
        · intro s hs
          exact hmem s ((computeOverlap_isSuffix oc cur).subset hs)
        · intro c hc
          rcases List.mem_append.mp hc with h1 | h1
          · exact hacc c h1
          · rw [List.mem_singleton.mp h1]
            exact ⟨hbound, hmem⟩
    case isFalse h =>
      injection hrun with hrun
      subst hrun
      intro c hc
      split at hc
      · exact hacc c hc
      · rcases List.mem_append.mp hc with h1 | h1
        · exact hacc c h1
        · rw [List.mem_singleton.mp h1]
          exact ⟨hbound, hmem⟩

lemma overlapChars_le_self (cs : ℕ) (frac : ℚ) (hf : frac ≤ 1) :
    overlapChars cs frac ≤ cs := by
  rw [overlapChars_eq_floor]
  have h1 : ⌊(cs : ℚ) * frac⌋ ≤ (cs : ℤ) := by
    calc ⌊(cs : ℚ) * frac⌋ ≤ ⌊(cs : ℚ)⌋ :=
          Int.floor_le_floor (mul_le_of_le_one_right (by positivity) hf)
      _ = (cs : ℤ) := Int.floor_natCast cs
  exact Int.toNat_le.mpr h1

lemma chunk_section_sents_bound (fuel cs : ℕ) (frac : ℚ) (h1 : frac ≤ 1)
    (sectionText : String) (runs : List (List String))
    (hrun : chunk_section_sents fuel cs frac sectionText = some runs) :
    ∀ r ∈ runs, (joinedLen r ≤ cs ∨ r.length = 1) ∧
      ∀ s ∈ r, s ∈ _split_sentences sectionText := by
  rw [chunk_section_sents] at hrun
  split at hrun
  · injection hrun with hrun
    subst hrun
    intro r hr
    exact absurd hr (List.not_mem_nil r)
  · exact chunkLoop_bound cs (overlapChars cs frac) (overlapChars_le_self cs frac h1)
      (_split_sentences sectionText) fuel 0 [] 0 [] runs rfl
      (Or.inl (by simp [joinedLen])) (by simp) (by simp) hrun

/-- Helper: the chunk-size bound at the `chunk_section` level (shared by
the C4 and C9 theorems). -/
lemma chunk_section_bound (fuel selfChunkSize : ℕ) (frac : ℚ)
    (sectionText sectionName source : String) (startId : ℕ)
    (effectiveChunkSize : Option ℕ) (out : List Chunk)
    (h1 : frac ≤ 1)
    (hrun : chunk_section fuel selfChunkSize frac sectionText sectionName source
      startId effectiveChunkSize = some out) :
    ∀ c ∈ out, c.text.length ≤ effectiveChunkSize.getD selfChunkSize ∨
      ∃ s ∈ _split_sentences sectionText, c.text = s := by
  rw [chunk_section] at hrun
  cases hsents : chunk_section_sents fuel (effectiveChunkSize.getD selfChunkSize) frac
      sectionText with
  | none => rw [hsents] at hrun; exact absurd hrun (by simp)
  | some runs =>
    rw [hsents] at hrun
    injection hrun with hrun
    subst hrun
    have hruns := chunk_section_sents_bound fuel _ frac h1 sectionText runs hsents
    intro c hc
    rw [List.mem_map] at hc
    obtain ⟨ic, hicmem, hiceq⟩ := hc
    have hic2 : ic.2 ∈ runs := by
      have h' := List.mem_enum_iff_getElem?.mp hicmem
      obtain ⟨hlt, heq⟩ := List.getElem?_eq_some.mp h'
      exact heq ▸ List.getElem_mem hlt
    obtain ⟨hb, hm⟩ := hruns ic.2 hic2
    rcases hb with hb | hb
    · left
      rw [← hiceq]
      simpa [joinSp_length] using hb
    · right
      match ic2 : ic.2, hb with
      | [s], _ =>
        refine ⟨s, ?_, ?_⟩
        · apply hm
          rw [ic2]
          exact List.mem_singleton_self s
        · rw [← hiceq, ic2]
          rfl

/-- C4: for every section text, chunk size ≥ 1 and overlap ratio in
`[0, 1]`, every chunk emitted by `chunk_section` has text length (sum of
sentence lengths plus one separator per join) at most the effective
chunk size, OR the chunk consists of exactly one input sentence (the
oversized-single-sentence exception). -/
theorem c4_chunk_size_bound (fuel selfChunkSize : ℕ) (frac : ℚ)
    (sectionText sectionName source : String) (startId : ℕ)
    (effectiveChunkSize : Option ℕ) (out : List Chunk)
    (hcs : 1 ≤ effectiveChunkSize.getD selfChunkSize)
    (h0 : 0 ≤ frac) (h1 : frac ≤ 1)
    (hrun : chunk_section fuel selfChunkSize frac sectionText sectionName source
      startId effectiveChunkSize = some out) :
    ∀ c ∈ out, c.text.length ≤ effectiveChunkSize.getD selfChunkSize ∨
      ∃ s ∈ _split_sentences sectionText, c.text = s :=
  chunk_section_bound fuel selfChunkSize frac sectionText sectionName source
    startId effectiveChunkSize out h1 hrun

/-! ## C6: contiguous chunk ids -/

lemma chunk_section_ids (fuel selfChunkSize : ℕ) (frac : ℚ)
    (sectionText sectionName source : String) (startId : ℕ)
    (effectiveChunkSize : Option ℕ) (out : List Chunk)
    (hrun : chunk_section fuel selfChunkSize frac sectionText sectionName source
      startId effectiveChunkSize = some out) :
    ∀ j (hj : j < out.length), (out[j]).chunk_id = startId + j := by
  rw [chunk_section] at hrun
  cases hsents : chunk_section_sents fuel (effectiveChunkSize.getD selfChunkSize) frac
      sectionText with
  | none => rw [hsents] at hrun; exact absurd hrun (by simp)
  | some runs =>
    rw [hsents] at hrun
    injection hrun with hrun
    subst hrun
    intro j hj
    have hj2 : j < runs.enum.length := by simpa using hj
    rw [List.getElem_map]
    rw [List.getElem_enum]

lemma chunkPaperGo_ids (fuel selfChunkSize : ℕ) (frac : ℚ) (source : String) :
    ∀ (secs : List Sect) (rid : ℕ) (out : List Chunk),
      chunkPaperGo fuel selfChunkSize frac source secs rid = some out →
      ∀ j (hj : j < out.length), (out[j]).chunk_id = rid + j := by
  intro secs
  induction secs with
  | nil =>
    intro rid out h j hj
    rw [chunkPaperGo] at h
    injection h with h
    subst h
    exact absurd hj (by simp)
  | cons sec rest ih =>
    intro rid out h j hj
    rw [chunkPaperGo] at h
    cases hcs : chunk_section fuel selfChunkSize frac sec.text sec.name source rid
        (some ((List.lookup sec.name SECTION_CHUNK_SIZES).getD selfChunkSize)) with
    | none => rw [hcs] at h; exact absurd h (by simp)
    | some newChunks =>
      rw [hcs] at h
      dsimp only at h
      cases hgo : chunkPaperGo fuel selfChunkSize frac source rest (rid + newChunks.length) with
      | none => rw [hgo] at h; exact absurd h (by simp)
      | some more =>
        rw [hgo] at h
        injection h with h
        subst h
        by_cases hlt : j < newChunks.length
        · rw [List.getElem_append_left hlt]
          exact chunk_section_ids fuel selfChunkSize frac sec.text sec.name source rid
            _ newChunks hcs j hlt
        · push_neg at hlt
          have hj2 : j - newChunks.length < more.length := by
            rw [List.length_append] at hj
            omega
          rw [List.getElem_append_right hlt]
          rw [ih (rid + newChunks.length) more hgo _ hj2]
          omega

/-- C6: the `chunk_id` values of a full `chunk_paper` run are exactly
`0, 1, ..., N-1` in emission order, with no gaps and no repeats. -/
theorem c6_chunk_ids_contiguous (fuel selfChunkSize : ℕ) (frac : ℚ)
    (text source : String) (out : List Chunk)
    (hrun : chunk_paper fuel selfChunkSize frac text source = some out) :
    out.map Chunk.chunk_id = List.range out.length := by
  have hids := chunkPaperGo_ids fuel selfChunkSize frac source (detect_sections text) 0 out hrun
  apply List.ext_getElem
  · simp
  · intro j h1 h2
    rw [List.getElem_map, List.getElem_range]
    have := hids j (by simpa using h1)
    omega

/-! ## Witnesses for C4 and C6 -/

lemma oc_9_half : overlapChars 9 (1/2 : ℚ) = 4 := by
  norm_num [overlapChars, Rat.floor_def']
  rfl

lemma c4w_run : chunk_section 10 9 (1/2 : ℚ) "ab. cd. ef." "Sec" "src" 0 none =
    some [⟨"ab. cd.", "Sec", "src", 0⟩, ⟨"cd. ef.", "Sec", "src", 1⟩] := by
  rw [chunk_section]
  show (match chunk_section_sents 10 9 (1/2 : ℚ) "ab. cd. ef." with
    | none => none
    | some runs => some (runs.enum.map
        (fun (ic : ℕ × List String) => (⟨joinSp ic.2, "Sec", "src", 0 + ic.1⟩ : Chunk)))) = _
  rw [chunk_section_sents, oc_9_half]
  decide

theorem c4_witness :
    (1 ≤ (none : Option ℕ).getD 9) ∧ (0 ≤ (1/2 : ℚ)) ∧ ((1/2 : ℚ) ≤ 1) ∧
    ∀ c ∈ [(⟨"ab. cd.", "Sec", "src", 0⟩ : Chunk), ⟨"cd. ef.", "Sec", "src", 1⟩],
      c.text.length ≤ (none : Option ℕ).getD 9 ∨
        ∃ s ∈ _split_sentences "ab. cd. ef.", c.text = s :=
  ⟨by decide, by norm_num, by norm_num,
    c4_chunk_size_bound 10 9 (1/2 : ℚ) "ab. cd. ef." "Sec" "src" 0 none _
      (by decide) (by norm_num) (by norm_num) c4w_run⟩

lemma oc_5_zero : overlapChars 5 (0 : ℚ) = 0 := by
  norm_num [overlapChars, Rat.floor_def']

lemma c6w_run : chunk_paper 10 5 (0 : ℚ) "One. Two." "src" =
    some [⟨"One.", "Full Text", "src", 0⟩, ⟨"Two.", "Full Text", "src", 1⟩] := by
  rw [chunk_paper]
  rw [show detect_sections "One. Two." = [⟨"Full Text", "One. Two."⟩] from by decide]
  rw [chunkPaperGo]
  have hsec : chunk_section 10 5 (0 : ℚ) "One. Two." "Full Text" "src" 0
      (some ((List.lookup "Full Text" SECTION_CHUNK_SIZES).getD 5)) =
      some [⟨"One.", "Full Text", "src", 0⟩, ⟨"Two.", "Full Text", "src", 1⟩] := by
    rw [chunk_section]
    show (match chunk_section_sents 10 5 (0 : ℚ) "One. Two." with
      | none => none
      | some runs => some (runs.enum.map
          (fun (ic : ℕ × List String) => (⟨joinSp ic.2, "Full Text", "src", 0 + ic.1⟩ : Chunk)))) = _
    rw [chunk_section_sents, oc_5_zero]
    decide
  rw [hsec]
  dsimp only
  rw [chunkPaperGo]
  rfl

theorem c6_witness :
    chunk_paper 10 5 (0 : ℚ) "One. Two." "src" =
      some [⟨"One.", "Full Text", "src", 0⟩, ⟨"Two.", "Full Text", "src", 1⟩] ∧
    ([(⟨"One.", "Full Text", "src", 0⟩ : Chunk), ⟨"Two.", "Full Text", "src", 1⟩]).map
      Chunk.chunk_id = List.range
        ([(⟨"One.", "Full Text", "src", 0⟩ : Chunk), ⟨"Two.", "Full Text", "src", 1⟩]).length :=
  ⟨c6w_run, c6_chunk_ids_contiguous 10 5 (0 : ℚ) "One. Two." "src" _ c6w_run⟩

/-! ## C5: overlap seeds between consecutive chunks -/

/-- The part of each chunk that continues the input (everything after
the overlap seed inherited from the previous chunk `prev`). -/
def freshAux (oc : ℕ) : List String → List (List String) → List String
  | _, [] => []
  | prev, c :: rest => c.drop (computeOverlap oc prev).length ++ freshAux oc c rest

/-- The first chunk, followed by each later chunk minus its inherited
overlap seed: if the assembly loop skips or duplicates nothing, this
equals the input sentence list. -/
def freshJoin (oc : ℕ) : List (List String) → List String
  | [] => []
  | c :: rest => c ++ freshAux oc c rest

/-- The relation between consecutive chunks: the overlap seed of the
earlier chunk is a proper prefix of the later chunk. -/
def overlapRel (oc : ℕ) (a b : List String) : Prop :=
  computeOverlap oc a <+: b ∧ (computeOverlap oc a).length < b.length

lemma freshAux_snoc (oc : ℕ) : ∀ (xs : List (List String)) (prev b : List String),
    freshAux oc prev (xs ++ [b]) =
      freshAux oc prev xs ++
        b.drop (computeOverlap oc ((prev :: xs).getLast (by simp))).length := by
  intro xs
  induction xs with
  | nil => intro prev b; simp [freshAux]
  | cons c rest ih =>
    intro prev b
    rw [List.cons_append, freshAux, freshAux, ih c b, List.append_assoc]
    have hgl : (prev :: c :: rest).getLast (by simp) = (c :: rest).getLast (by simp) :=
      List.getLast_cons (by simp)
    rw [hgl]

lemma freshJoin_snoc (oc : ℕ) (xs : List (List String)) (hne : xs ≠ []) (b : List String) :
    freshJoin oc (xs ++ [b]) =
      freshJoin oc xs ++ b.drop (computeOverlap oc (xs.getLast hne)).length := by
  cases xs with
  | nil => exact absurd rfl hne
  | cons c rest =>
    rw [List.cons_append, freshJoin, freshJoin, freshAux_snoc oc rest c b, ← List.append_assoc]

/-- From a state whose overlap seed reproduces itself, the loop never
exits (it re-emits the seed forever without advancing `i`). -/
lemma chunkLoop_stall (cs oc : ℕ) (ss : List String) (i : ℕ) (cur : List String)
    (hin : i < ss.length)
    (hcond : ¬(joinedLen cur + (ss.get ⟨i, hin⟩).length + (if cur = [] then 0 else 1) ≤ cs
      ∨ cur = []))
    (hfix : computeOverlap oc cur = cur) :
    ∀ fuel acc, chunkLoop cs oc ss fuel i cur (joinedLen cur) acc = none := by
  intro fuel
  induction fuel with
  | zero => intro acc; rfl
  | succ n ih =>
    intro acc
    rw [chunkLoop, dif_pos hin, if_neg hcond, hfix]
    exact ih (acc ++ [cur])

lemma chunkLoop_overlap (cs oc : ℕ) (ss : List String) :
    ∀ fuel i cur curLen acc out,
      curLen = joinedLen cur →
      List.Chain' (overlapRel oc) acc →
      (∀ lastC, acc.getLast? = some lastC →
        computeOverlap oc lastC <+: cur ∧ (cur = computeOverlap oc lastC → i < ss.length)) →
      freshJoin oc (acc ++ [cur]) = ss.take i →
      chunkLoop cs oc ss fuel i cur curLen acc = some out →
      List.Chain' (overlapRel oc) out ∧ freshJoin oc out = ss := by
  intro fuel
  induction fuel with
  | zero =>
    intro i cur curLen acc out _ _ _ _ h
    exact absurd h (by simp [chunkLoop])
  | succ n ih =>
    intro i cur curLen acc out hlen hchain hlink hflat hrun
    have hrun0 := hrun
    rw [chunkLoop] at hrun
    split at hrun
    case isTrue h =>
      by_cases hcond :
          curLen + (ss.get ⟨i, h⟩).length + (if cur = [] then 0 else 1) ≤ cs ∨ cur = []
      · -- accept step
        rw [if_pos hcond] at hrun
        refine ih (i + 1) (cur ++ [ss.get ⟨i, h⟩]) _ acc out ?_ hchain ?_ ?_ hrun
        · rw [joinedLen_append_single, hlen]
        · intro lastC hlast
          obtain ⟨hpre, _⟩ := hlink lastC hlast
          constructor
          · exact hpre.trans (List.prefix_append cur _)
          · intro heq
            exfalso
            have h1 : (computeOverlap oc lastC).length ≤ cur.length := hpre.length_le
            have h2 : (cur ++ [ss.get ⟨i, h⟩]).length = cur.length + 1 := by simp
            rw [heq] at h2
            omega
        · -- flatten after accepting sentence i
          have htake : ss.take (i + 1) = ss.take i ++ [ss.get ⟨i, h⟩] := by
            rw [List.take_succ]
            simp [List.getElem?_eq_getElem h]
          rw [htake, ← hflat]
          cases hacc : acc with
          | nil => simp [freshJoin, freshAux]
          | cons a0 arest =>
            have hne : acc ≠ [] := by rw [hacc]; simp
            rw [← hacc]
            obtain ⟨hpre, -⟩ := hlink (acc.getLast hne) (List.getLast?_eq_getLast acc hne)
            rw [freshJoin_snoc oc acc hne, freshJoin_snoc oc acc hne,
              List.drop_append_of_le_length hpre.length_le, List.append_assoc]
      · -- emit step
        rw [if_neg hcond] at hrun
        -- the seed cannot be `cur` itself, else the loop would stall
        have hcur_ne : ∀ lastC, acc.getLast? = some lastC → cur ≠ computeOverlap oc lastC := by
          intro lastC hlast heq
          have hfix : computeOverlap oc cur = cur := by
            conv_lhs => rw [heq]
            rw [computeOverlap_idem]
            exact heq.symm
          have hstall := chunkLoop_stall cs oc ss i cur h
            (by rw [← hlen]; exact hcond) hfix (n + 1) acc
          rw [← hlen] at hstall
          rw [hstall] at hrun0
          exact Option.noConfusion hrun0
        refine ih i (computeOverlap oc cur) _ (acc ++ [cur]) out rfl ?_ ?_ ?_ hrun
        · -- chain extended with cur
          rw [List.chain'_append]
          refine ⟨hchain, List.chain'_singleton _, ?_⟩
          intro x hx y hy
          simp only [List.head?_cons, Option.mem_def, Option.some.injEq] at hy
          subst hy
          obtain ⟨hpre, -⟩ := hlink x hx
          have hne3 := hcur_ne x hx
          refine ⟨hpre, ?_⟩
          rcases lt_or_eq_of_le hpre.length_le with hlt | heqlen
          · exact hlt
          · exact absurd (hpre.eq_of_length heqlen).symm hne3
        · intro lastC hlast
          rw [List.getLast?_concat] at hlast
          injection hlast with hlast
          subst hlast
          exact ⟨List.prefix_refl _, fun _ => h⟩
        · rw [freshJoin_snoc oc (acc ++ [cur]) (by simp) (computeOverlap oc cur)]
          rw [← hflat]
          have hgl : (acc ++ [cur]).getLast (by simp) = cur := by
            simp [List.getLast_concat]
          rw [hgl, List.drop_length]
          simp
    case isFalse h =>
      push_neg at h
      injection hrun with hrun
      subst hrun
      by_cases hcur : cur = []
      · rw [if_pos hcur]
        -- cur empty at exit forces acc empty (else the link would stall)
        cases hacc : acc with
        | nil =>
          subst hcur
          rw [hacc] at hflat
          simp only [List.nil_append] at hflat
          have hss : ss = [] := by
            have : freshJoin oc [([] : List String)] = [] := by simp [freshJoin, freshAux]
            rw [this] at hflat
            have h2 := List.take_of_length_le h
            rw [h2] at hflat
            exact hflat.symm
          subst hss
          exact ⟨List.chain'_nil, rfl⟩
        | cons a0 arest =>
          exfalso
          have hne : acc ≠ [] := by rw [hacc]; simp
          obtain ⟨hpre, himp⟩ := hlink (acc.getLast hne) (List.getLast?_eq_getLast acc hne)
          rw [hcur] at hpre
          have hseednil : computeOverlap oc (acc.getLast hne) = [] := List.prefix_nil.mp hpre
          have := himp (by rw [hcur, hseednil])
          omega
      · rw [if_neg hcur]
        constructor
        · rw [List.chain'_append]
          refine ⟨hchain, List.chain'_singleton _, ?_⟩
          intro x hx y hy
          simp only [List.head?_cons, Option.mem_def, Option.some.injEq] at hy
          subst hy
          obtain ⟨hpre, himp⟩ := hlink x hx
          refine ⟨hpre, ?_⟩
          rcases lt_or_eq_of_le hpre.length_le with hlt | heqlen
          · exact hlt
          · exfalso
            have h2 := himp (hpre.eq_of_length heqlen).symm
            omega
        · rw [hflat]
          exact List.take_of_length_le h

/-- C5: for every terminating `chunk_section` run, consecutive chunks
overlap exactly as specified: the backward-walked overlap seed of chunk
`i` (a suffix of chunk `i`, whole sentences only) is a proper prefix of
chunk `i+1`, and concatenating the first chunk with every later chunk's
non-seed remainder reproduces the input sentence list exactly — so the
sentence that triggered each overflow is re-offered to the next chunk,
never skipped. -/
theorem c5_overlap_seeds (fuel selfChunkSize : ℕ) (frac : ℚ)
    (sectionText sectionName source : String) (startId : ℕ)
    (effectiveChunkSize : Option ℕ) (out : List Chunk)
    (hrun : chunk_section fuel selfChunkSize frac sectionText sectionName source
      startId effectiveChunkSize = some out)
    (hmulti : 1 < out.length) :
    ∃ sc, chunk_section_sents fuel (effectiveChunkSize.getD selfChunkSize) frac
        sectionText = some sc ∧
      out.map Chunk.text = sc.map joinSp ∧
      List.Chain' (overlapRel (overlapChars (effectiveChunkSize.getD selfChunkSize) frac)) sc ∧
      (∀ c ∈ sc,
        computeOverlap (overlapChars (effectiveChunkSize.getD selfChunkSize) frac) c <:+ c) ∧
      freshJoin (overlapChars (effectiveChunkSize.getD selfChunkSize) frac) sc =
        _split_sentences sectionText := by
  rw [chunk_section] at hrun
  cases hsents : chunk_section_sents fuel (effectiveChunkSize.getD selfChunkSize) frac
      sectionText with
  | none => rw [hsents] at hrun; exact absurd hrun (by simp)
  | some sc =>
    rw [hsents] at hrun
    injection hrun with hrun
    subst hrun
    refine ⟨sc, rfl, ?_, ?_, fun c _ => computeOverlap_isSuffix _ c, ?_⟩
    · rw [List.map_map]
      have h2 : sc.map joinSp = (sc.enum.map Prod.snd).map joinSp := by
        rw [List.enum_map_snd]
      rw [h2, List.map_map]
      rfl
    · rw [chunk_section_sents] at hsents
      split at hsents
      · injection hsents with hsents
        subst hsents
        exact List.chain'_nil
      · exact (chunkLoop_overlap _ _ _ fuel 0 [] 0 [] sc rfl List.chain'_nil
          (by intro lastC hl; simp at hl) (by simp [freshJoin, freshAux]) hsents).1
    · rw [chunk_section_sents] at hsents
      split at hsents
      case isTrue hemp =>
        injection hsents with hsents
        subst hsents
        rw [hemp]
        rfl
      case isFalse hemp =>
        exact (chunkLoop_overlap _ _ _ fuel 0 [] 0 [] sc rfl List.chain'_nil
          (by intro lastC hl; simp at hl) (by simp [freshJoin, freshAux]) hsents).2

/-- Witness for C5 at a concrete two-chunk run: chunks
`["ab.", "cd."]` and `["cd.", "ef."]` overlap on `"cd."`. -/
theorem c5_overlap_seeds_witness :
    chunk_section 10 9 (1/2 : ℚ) "ab. cd. ef." "Sec" "src" 0 none =
      some [⟨"ab. cd.", "Sec", "src", 0⟩, ⟨"cd. ef.", "Sec", "src", 1⟩] ∧
    1 < ([(⟨"ab. cd.", "Sec", "src", 0⟩ : Chunk), ⟨"cd. ef.", "Sec", "src", 1⟩]).length ∧
    ∃ sc, chunk_section_sents 10 ((none : Option ℕ).getD 9) (1/2 : ℚ) "ab. cd. ef."
        = some sc ∧
      ([(⟨"ab. cd.", "Sec", "src", 0⟩ : Chunk), ⟨"cd. ef.", "Sec", "src", 1⟩]).map
          Chunk.text = sc.map joinSp ∧
      List.Chain' (overlapRel (overlapChars ((none : Option ℕ).getD 9) (1/2 : ℚ))) sc ∧
      (∀ c ∈ sc,
        computeOverlap (overlapChars ((none : Option ℕ).getD 9) (1/2 : ℚ)) c <:+ c) ∧
      freshJoin (overlapChars ((none : Option ℕ).getD 9) (1/2 : ℚ)) sc =
        _split_sentences "ab. cd. ef." :=
  ⟨c4w_run, by decide,
    c5_overlap_seeds 10 9 (1/2 : ℚ) "ab. cd. ef." "Sec" "src" 0 none _ c4w_run (by decide)⟩

/-! ## C9: per-section chunk-size overrides -/

lemma chunk_section_secName (fuel selfChunkSize : ℕ) (frac : ℚ)
    (sectionText sectionName source : String) (startId : ℕ)
    (effectiveChunkSize : Option ℕ) (out : List Chunk)
    (hrun : chunk_section fuel selfChunkSize frac sectionText sectionName source
      startId effectiveChunkSize = some out) :
    ∀ c ∈ out, c.sectionName = sectionName := by
  rw [chunk_section] at hrun
  cases hsents : chunk_section_sents fuel (effectiveChunkSize.getD selfChunkSize) frac
      sectionText with
  | none => rw [hsents] at hrun; exact absurd hrun (by simp)
  | some runs =>
    rw [hsents] at hrun
    injection hrun with hrun
    subst hrun
    intro c hc
    rw [List.mem_map] at hc
    obtain ⟨ic, -, hiceq⟩ := hc
    rw [← hiceq]

lemma chunkPaperGo_bound (fuel selfChunkSize : ℕ) (frac : ℚ) (source : String)
    (h1 : frac ≤ 1) :
    ∀ (secs : List Sect) (rid : ℕ) (out : List Chunk),
      chunkPaperGo fuel selfChunkSize frac source secs rid = some out →
      ∀ c ∈ out, ∃ sec ∈ secs, c.sectionName = sec.name ∧
        (c.text.length ≤ (List.lookup sec.name SECTION_CHUNK_SIZES).getD selfChunkSize ∨
          ∃ s ∈ _split_sentences sec.text, c.text = s) := by
  intro secs
  induction secs with
  | nil =>
    intro rid out h c hc
    rw [chunkPaperGo] at h
    injection h with h
    subst h
    exact absurd hc (List.not_mem_nil c)
  | cons sec rest ih =>
    intro rid out h c hc
    rw [chunkPaperGo] at h
    cases hcs : chunk_section fuel selfChunkSize frac sec.text sec.name source rid
        (some ((List.lookup sec.name SECTION_CHUNK_SIZES).getD selfChunkSize)) with
    | none => rw [hcs] at h; exact absurd h (by simp)
    | some newChunks =>
      rw [hcs] at h
      dsimp only at h
      cases hgo : chunkPaperGo fuel selfChunkSize frac source rest (rid + newChunks.length) with
      | none => rw [hgo] at h; exact absurd h (by simp)
      | some more =>
        rw [hgo] at h
        injection h with h
        subst h
        rcases List.mem_append.mp hc with hmem | hmem
        · refine ⟨sec, List.mem_cons_self sec rest, ?_, ?_⟩
          · exact chunk_section_secName fuel selfChunkSize frac sec.text sec.name source
              rid _ newChunks hcs c hmem
          · have hb := chunk_section_bound fuel selfChunkSize frac sec.text sec.name source
              rid _ newChunks h1 hcs c hmem
            simpa using hb
        · obtain ⟨sec2, hsec2, hrest⟩ := ih (rid + newChunks.length) more hgo c hmem
          exact ⟨sec2, List.mem_cons_of_mem sec hsec2, hrest⟩

/-- C9: the override table maps Abstract/Methods/Methodology/Results to
budgets 2000/1000/1000/800, all strictly larger than the class default
chunk size (500); `chunk_paper` chunks every detected section with
`SECTION_CHUNK_SIZES.get(name, self.chunk_size)` — so a section whose
name is not in the table is chunked with the configured default, and
each emitted chunk respects the per-section budget (or is a single
sentence of its section). -/
theorem c9_section_size_overrides :
    (List.lookup "Abstract" SECTION_CHUNK_SIZES = some 2000 ∧
     List.lookup "Methods" SECTION_CHUNK_SIZES = some 1000 ∧
     List.lookup "Methodology" SECTION_CHUNK_SIZES = some 1000 ∧
     List.lookup "Results" SECTION_CHUNK_SIZES = some 800) ∧
    (∀ p ∈ SECTION_CHUNK_SIZES, DEFAULT_CHUNK_SIZE < p.2) ∧
    (∀ (name : String) (cfg : ℕ), List.lookup name SECTION_CHUNK_SIZES = none →
      (List.lookup name SECTION_CHUNK_SIZES).getD cfg = cfg) ∧
    (∀ (fuel cfg : ℕ) (frac : ℚ) (text source : String) (out : List Chunk),
      frac ≤ 1 →
      chunk_paper fuel cfg frac text source = some out →
      ∀ c ∈ out, ∃ sec ∈ detect_sections text, c.sectionName = sec.name ∧
        (c.text.length ≤ (List.lookup sec.name SECTION_CHUNK_SIZES).getD cfg ∨
          ∃ s ∈ _split_sentences sec.text, c.text = s)) := by
  refine ⟨⟨by decide, by decide, by decide, by decide⟩, by decide, ?_, ?_⟩
  · intro name cfg h
    rw [h]
    rfl
  · intro fuel cfg frac text source out h1 hrun
    exact chunkPaperGo_bound fuel cfg frac source h1 (detect_sections text) 0 out hrun

/-- Witness for C9: the table facts plus the behavioral conjunct applied
to a concrete run whose only section ("Full Text") is not in the table
and is therefore chunked with the configured default size. -/
theorem c9_section_size_overrides_witness :
    List.lookup "Full Text" SECTION_CHUNK_SIZES = none ∧
    (List.lookup "Full Text" SECTION_CHUNK_SIZES).getD 5 = 5 ∧
    ((0 : ℚ) ≤ 1) ∧
    (∀ c ∈ [(⟨"One.", "Full Text", "src", 0⟩ : Chunk), ⟨"Two.", "Full Text", "src", 1⟩],
      ∃ sec ∈ detect_sections "One. Two.", c.sectionName = sec.name ∧
        (c.text.length ≤ (List.lookup sec.name SECTION_CHUNK_SIZES).getD 5 ∨
          ∃ s ∈ _split_sentences sec.text, c.text = s)) :=
  ⟨by decide, by decide, by norm_num,
    c9_section_size_overrides.2.2.2 10 5 (0 : ℚ) "One. Two." "src" _
      (by norm_num) c6w_run⟩

/-! ## C3: vector-only fallback -/

lemma normalizeStage_method (method : String) (l : List Cand) :
    ∀ r ∈ normalizeStage method l, r.retrieval_method = method := by
  intro r hr
  rw [normalizeStage] at hr
  rw [List.mem_map] at hr
  obtain ⟨p, -, hpeq⟩ := hr
  rw [← hpeq]

/-- C3: a missing BM25 index or an empty indexed corpus makes
`bm25_search` return `[]` for every query, in which case `search` skips
fusion, reranks the vector-search output exactly, and tags every result
`"vector_only"`; when BM25 produces results, every output is tagged
`"hybrid"`. Both paths are total functions — no error is raised. -/
theorem c3_vector_only_fallback :
    (∀ (d : BM25Data) (getScores : List (List String) → List String → List ℚ)
      (query : String) (n : ℕ),
      d.index = none ∨ d.docs = [] → bm25_search d getScores query n = []) ∧
    (∀ (d : BM25Data) (getScores : List (List String) → List String → List ℚ)
      (vdocs : List String) (vmetas : List (Option String)) (vdists : List ℚ)
      (vids : List String) (ce : String → String → ℚ) (query : String) (nResults : ℕ),
      d.index = none ∨ d.docs = [] →
      search d getScores vdocs vmetas vdists vids ce query nResults =
        normalizeStage "vector_only"
          (rerank ce query (vector_search vdocs vmetas vdists vids) nResults) ∧
      ∀ r ∈ search d getScores vdocs vmetas vdists vids ce query nResults,
        r.retrieval_method = "vector_only") ∧
    (∀ (d : BM25Data) (getScores : List (List String) → List String → List ℚ)
      (vdocs : List String) (vmetas : List (Option String)) (vdists : List ℚ)
      (vids : List String) (ce : String → String → ℚ) (query : String) (nResults : ℕ),
      bm25_search d getScores query 20 ≠ [] →
      ∀ r ∈ search d getScores vdocs vmetas vdists vids ce query nResults,
        r.retrieval_method = "hybrid") := by
  have hempty : ∀ (d : BM25Data) (getScores : List (List String) → List String → List ℚ)
      (query : String) (n : ℕ),
      d.index = none ∨ d.docs = [] → bm25_search d getScores query n = [] := by
    intro d getScores query n h
    rw [bm25_search]
    cases hidx : d.index with
    | none => rfl
    | some corpus =>
      dsimp only
      rcases h with h | h
      · rw [hidx] at h; exact absurd h (by simp)
      · rw [if_pos h]
  refine ⟨hempty, ?_, ?_⟩
  · intro d getScores vdocs vmetas vdists vids ce query nResults h
    have hb := hempty d getScores query 20 h
    constructor
    · rw [search, searchMethod, searchReranked, searchFused, hb]
      simp
    · intro r hr
      rw [search] at hr
      have := normalizeStage_method (searchMethod d getScores query) _ r hr
      rw [searchMethod, hb] at this
      simpa using this
  · intro d getScores vdocs vmetas vdists vids ce query nResults h r hr
    rw [search] at hr
    have := normalizeStage_method (searchMethod d getScores query) _ r hr
    rw [searchMethod, if_neg h] at this
    exact this

/-- Witness for C3 at a concrete un-built index. -/
theorem c3_vector_only_fallback_witness :
    ((⟨none, [], [], []⟩ : BM25Data).index = none ∨
      (⟨none, [], [], []⟩ : BM25Data).docs = []) ∧
    bm25_search ⟨none, [], [], []⟩ (fun _ _ => []) "q" 20 = [] ∧
    (search ⟨none, [], [], []⟩ (fun _ _ => []) ["v1"] [] [] [] (fun _ _ => 0) "q" 5 =
      normalizeStage "vector_only"
        (rerank (fun _ _ => 0) "q" (vector_search ["v1"] [] [] []) 5) ∧
    ∀ r ∈ search ⟨none, [], [], []⟩ (fun _ _ => []) ["v1"] [] [] [] (fun _ _ => 0) "q" 5,
      r.retrieval_method = "vector_only") :=
  ⟨Or.inl rfl,
    c3_vector_only_fallback.1 ⟨none, [], [], []⟩ (fun _ _ => []) "q" 20 (Or.inl rfl),
    c3_vector_only_fallback.2.1 ⟨none, [], [], []⟩ (fun _ _ => []) ["v1"] [] [] []
      (fun _ _ => 0) "q" 5 (Or.inl rfl)⟩

/-! ## C10: the section field of every search result is empty -/

lemma bm25_search_section (d : BM25Data)
    (getScores : List (List String) → List String → List ℚ) (query : String) (n : ℕ) :
    ∀ c ∈ bm25_search d getScores query n, c.sectionKey = none := by
  intro c hc
  rw [bm25_search] at hc
  cases hidx : d.index with
  | none => rw [hidx] at hc; exact absurd hc (List.not_mem_nil c)
  | some corpus =>
    rw [hidx] at hc
    dsimp only at hc
    split at hc
    · exact absurd hc (List.not_mem_nil c)
    · rw [List.mem_map] at hc
      obtain ⟨i, -, hieq⟩ := hc
      rw [← hieq]

lemma vector_search_section (vdocs : List String) (vmetas : List (Option String))
    (vdists : List ℚ) (vids : List String) :
    ∀ c ∈ vector_search vdocs vmetas vdists vids, c.sectionKey = none := by
  intro c hc
  rw [vector_search, List.mem_map] at hc
  obtain ⟨p, -, hpeq⟩ := hc
  rw [← hpeq]

lemma mapInsert_pres (P : Cand → Prop) :
    ∀ (m : List (String × Cand)) (key : String) (c : Cand),
      (∀ kv ∈ m, P kv.2) → P c → ∀ kv ∈ mapInsert m key c, P kv.2 := by
  intro m
  induction m with
  | nil =>
    intro key c _ hc kv hkv
    rw [mapInsert] at hkv
    rw [List.mem_singleton.mp hkv]
    exact hc
  | cons p rest ih =>
    intro key c hm hc kv hkv
    rw [mapInsert] at hkv
    split at hkv
    · exact hm kv hkv
    · rcases List.mem_cons.mp hkv with h1 | h1
      · exact hm kv (h1 ▸ List.mem_cons_self p rest)
      · exact ih key c (fun kv2 hkv2 => hm kv2 (List.mem_cons_of_mem p hkv2)) hc kv h1

lemma rrfFold_pres (P : Cand → Prop) (k : ℕ) :
    ∀ (ps : List (ℕ × Cand)) (st : List (String × ℚ) × List (String × Cand)),
      (∀ p ∈ ps, P p.2) → (∀ kv ∈ st.2, P kv.2) →
      ∀ kv ∈ (ps.foldl (fun st p =>
        (bumpScore st.1 (docKey p.2) (1 / ((k : ℚ) + (p.1 + 1))),
          mapInsert st.2 (docKey p.2) p.2)) st).2, P kv.2 := by
  intro ps
  induction ps with
  | nil => intro st _ hst kv hkv; exact hst kv hkv
  | cons p ps ih =>
    intro st hps hst kv hkv
    rw [List.foldl_cons] at hkv
    exact ih _ (fun q hq => hps q (List.mem_cons_of_mem p hq))
      (mapInsert_pres P st.2 (docKey p.2) p.2 hst (hps p (List.mem_cons_self p ps))) kv hkv

lemma mem_enum_snd {α : Type} (l : List α) (p : ℕ × α) (h : p ∈ l.enum) : p.2 ∈ l := by
  have h2 : p.2 ∈ l.enum.map Prod.snd := List.mem_map_of_mem Prod.snd h
  rwa [List.enum_map_snd] at h2

lemma lookup_mem {β : Type} : ∀ (m : List (String × β)) (key : String) (c : β),
    List.lookup key m = some c → (key, c) ∈ m := by
  intro m
  induction m with
  | nil => intro key c h; exact absurd h (by simp)
  | cons kv rest ih =>
    intro key c h
    obtain ⟨k1, v1⟩ := kv
    rw [List.lookup] at h
    by_cases hk : key = k1
    · subst hk
      simp only [beq_self_eq_true] at h
      injection h with h
      subst h
      exact List.mem_cons_self _ _
    · have hne : (key == k1) = false := beq_eq_false_iff_ne.mpr hk
      rw [hne] at h
      exact List.mem_cons_of_mem _ (ih key c h)

lemma rrf_section (results_list : List (List Cand)) (k : ℕ)
    (hall : ∀ l ∈ results_list, ∀ c ∈ l, c.sectionKey = none) :
    ∀ c ∈ reciprocal_rank_fusion results_list k, c.sectionKey = none := by
  intro c hc
  rw [reciprocal_rank_fusion] at hc
  rw [List.mem_filterMap] at hc
  obtain ⟨key, -, hkey⟩ := hc
  have hmap : ∀ kv ∈ (results_list.foldl (rrfFold k) ([], [])).2, kv.2.sectionKey = none := by
    have hgen : ∀ (ls : List (List Cand)) (st : List (String × ℚ) × List (String × Cand)),
        (∀ l ∈ ls, ∀ c2 ∈ l, c2.sectionKey = none) →
        (∀ kv ∈ st.2, kv.2.sectionKey = none) →
        ∀ kv ∈ (ls.foldl (rrfFold k) st).2, kv.2.sectionKey = none := by
      intro ls
      induction ls with
      | nil => intro st _ hst kv hkv; exact hst kv hkv
      | cons l ls ih =>
        intro st hls hst kv hkv
        rw [List.foldl_cons] at hkv
        refine ih _ (fun l2 hl2 => hls l2 (List.mem_cons_of_mem l hl2)) ?_ kv hkv
        intro kv2 hkv2
        exact rrfFold_pres (fun c2 => c2.sectionKey = none) k l.enum st
          (fun p hp => hls l (List.mem_cons_self l ls) p.2 (mem_enum_snd l p hp))
          hst kv2 hkv2
    intro kv hkv
    exact hgen results_list ([], []) hall (by simp) kv hkv
  cases hlook : List.lookup key (results_list.foldl (rrfFold k) ([], [])).2 with
  | none => rw [hlook] at hkey; exact absurd hkey (by simp)
  | some c0 =>
    rw [hlook] at hkey
    dsimp only at hkey
    injection hkey with hkey
    have hc0 : (key, c0) ∈ (results_list.foldl (rrfFold k) ([], [])).2 :=
      lookup_mem _ key c0 hlook
    have := hmap (key, c0) hc0
    rw [← hkey]
    exact this

lemma rerank_section (ce : String → String → ℚ) (query : String)
    (candidates : List Cand) (topK : ℕ)
    (hall : ∀ c ∈ candidates, c.sectionKey = none) :
    ∀ c ∈ rerank ce query candidates topK, c.sectionKey = none := by
  intro c hc
  rw [rerank] at hc
  split at hc
  · exact absurd hc (List.not_mem_nil c)
  · have hc2 := List.mem_of_mem_take hc
    have hc3 := (List.perm_insertionSort (byKeyDesc Cand.score) _).mem_iff.mp hc2
    rw [List.mem_map] at hc3
    obtain ⟨c0, hc0, hceq⟩ := hc3
    rw [← hceq]
    exact hall c0 hc0

/-- C10: every result returned by `search` has an empty `section` field:
no producer in the pipeline (neither `bm25_search` nor `vector_search`)
ever writes a `"section"` key into the candidate dicts, fusion and
reranking only copy them, and the output stage reads
`result.get("section", "")`, which therefore always yields `""`. -/
theorem c10_section_always_empty (d : BM25Data)
    (getScores : List (List String) → List String → List ℚ)
    (vdocs : List String) (vmetas : List (Option String)) (vdists : List ℚ)
    (vids : List String) (ce : String → String → ℚ) (query : String) (nResults : ℕ) :
    ∀ r ∈ search d getScores vdocs vmetas vdists vids ce query nResults,
      r.sectionName = "" := by
  intro r hr
  rw [search, normalizeStage] at hr
  rw [List.mem_map] at hr
  obtain ⟨p, hp, hpeq⟩ := hr
  obtain ⟨c0, nv⟩ := p
  have hp1 : c0 ∈ searchReranked d getScores vdocs vmetas vdists vids ce query nResults :=
    (List.of_mem_zip hp).1
  have hfsec : ∀ c ∈ searchFused d getScores vdocs vmetas vdists vids query,
      c.sectionKey = none := by
    rw [searchFused]
    split
    · exact vector_search_section vdocs vmetas vdists vids
    · apply rrf_section
      intro l hl
      rcases List.mem_cons.mp hl with h1 | h1
      · subst h1
        exact bm25_search_section d getScores query 20
      · rcases List.mem_cons.mp h1 with h2 | h2
        · subst h2
          exact vector_search_section vdocs vmetas vdists vids
        · exact absurd h2 (List.not_mem_nil l)
  have hsec := rerank_section ce query _ nResults hfsec c0 hp1
  rw [← hpeq]
  simp [hsec]

/-- Helper: the concrete search run shared by the retriever witnesses:
one vector document, no BM25 index, constant cross-encoder score. -/
lemma searchw_run :
    search ⟨none, [], [], []⟩ (fun _ _ => []) ["v1"] [] [] [] (fun _ _ => 0) "q" 5 =
      [⟨"v1", "unknown", 0, "", "vector_only"⟩] := by
  have h1 : searchReranked ⟨none, [], [], []⟩ (fun _ _ => []) ["v1"] [] [] []
      (fun _ _ => 0) "q" 5 = [⟨"v1", "unknown", 0, "", none⟩] := by
    rw [searchReranked, searchFused]
    norm_num [bm25_search, vector_search, rerank, List.insertionSort, List.orderedInsert]
  have h2 : searchMethod ⟨none, [], [], []⟩ (fun _ _ => []) "q" = "vector_only" := rfl
  have h3 : normalizeScores [0] = [1] := by
    rw [normalizeScores]
    norm_num [listMin, listMax]
  rw [search, h1, h2, normalizeStage]
  have h4 : ([(⟨"v1", "unknown", 0, "", none⟩ : Cand)].map Cand.score) = [0] := rfl
  rw [if_neg (by simp), h4, h3]
  norm_num

/-- Witness for C10 at the concrete search run. -/
theorem c10_section_always_empty_witness :
    (⟨"v1", "unknown", 0, "", "vector_only"⟩ : FinalResult) ∈
      search ⟨none, [], [], []⟩ (fun _ _ => []) ["v1"] [] [] [] (fun _ _ => 0) "q" 5 ∧
    (⟨"v1", "unknown", 0, "", "vector_only"⟩ : FinalResult).sectionName = "" :=
  ⟨by rw [searchw_run]; exact List.mem_singleton_self _,
    c10_section_always_empty ⟨none, [], [], []⟩ (fun _ _ => []) ["v1"] [] [] []
      (fun _ _ => 0) "q" 5 _ (by rw [searchw_run]; exact List.mem_singleton_self _)⟩


/-! ## C2: distance bounds, monotonicity, degenerate normalization -/

lemma foldl_min_le_init : ∀ (l : List ℚ) (a : ℚ), l.foldl min a ≤ a := by
  intro l
  induction l with
  | nil => intro a; exact le_refl a
  | cons b xs ih => intro a; exact le_trans (ih (min a b)) (min_le_left a b)

lemma foldl_min_le_mem : ∀ (l : List ℚ) (a x : ℚ), x ∈ l → l.foldl min a ≤ x := by
  intro l
  induction l with
  | nil => intro a x hx; exact absurd hx (List.not_mem_nil x)
  | cons b xs ih =>
    intro a x hx
    rcases List.mem_cons.mp hx with h | h
    · subst h
      exact le_trans (foldl_min_le_init xs (min a x)) (min_le_right a x)
    · exact ih (min a b) x h

lemma listMin_le (l : List ℚ) (x : ℚ) (h : x ∈ l) : listMin l ≤ x := by
  cases l with
  | nil => exact absurd h (List.not_mem_nil x)
  | cons a xs =>
    rw [listMin]
    rcases List.mem_cons.mp h with h2 | h2
    · subst h2; exact foldl_min_le_init xs x
    · exact foldl_min_le_mem xs a x h2

lemma init_le_foldl_max : ∀ (l : List ℚ) (a : ℚ), a ≤ l.foldl max a := by
  intro l
  induction l with
  | nil => intro a; exact le_refl a
  | cons b xs ih => intro a; exact le_trans (le_max_left a b) (ih (max a b))

lemma mem_le_foldl_max : ∀ (l : List ℚ) (a x : ℚ), x ∈ l → x ≤ l.foldl max a := by
  intro l
  induction l with
  | nil => intro a x hx; exact absurd hx (List.not_mem_nil x)
  | cons b xs ih =>
    intro a x hx
    rcases List.mem_cons.mp hx with h | h
    · subst h
      exact le_trans (le_max_right a x) (init_le_foldl_max xs (max a x))
    · exact ih (max a b) x h

lemma le_listMax (l : List ℚ) (x : ℚ) (h : x ∈ l) : x ≤ listMax l := by
  cases l with
  | nil => exact absurd h (List.not_mem_nil x)
  | cons a xs =>
    rw [listMax]
    rcases List.mem_cons.mp h with h2 | h2
    · subst h2; exact init_le_foldl_max xs x
    · exact mem_le_foldl_max xs a x h2

lemma foldl_min_mem : ∀ (l : List ℚ) (a : ℚ), l.foldl min a ∈ a :: l := by
  intro l
  induction l with
  | nil => intro a; exact List.mem_singleton_self a
  | cons b xs ih =>
    intro a
    rw [List.foldl_cons]
    rcases List.mem_cons.mp (ih (min a b)) with h | h
    · rcases min_choice a b with h2 | h2 <;> rw [h, h2]
      · exact List.mem_cons_self _ _
      · exact List.mem_cons_of_mem _ (List.mem_cons_self _ _)
    · exact List.mem_cons_of_mem _ (List.mem_cons_of_mem _ h)

lemma listMin_mem (l : List ℚ) (h : l ≠ []) : listMin l ∈ l := by
  cases l with
  | nil => exact absurd rfl h
  | cons a xs => rw [listMin]; exact foldl_min_mem xs a

lemma foldl_max_mem : ∀ (l : List ℚ) (a : ℚ), l.foldl max a ∈ a :: l := by
  intro l
  induction l with
  | nil => intro a; exact List.mem_singleton_self a
  | cons b xs ih =>
    intro a
    rw [List.foldl_cons]
    rcases List.mem_cons.mp (ih (max a b)) with h | h
    · rcases max_choice a b with h2 | h2 <;> rw [h, h2]
      · exact List.mem_cons_self _ _
      · exact List.mem_cons_of_mem _ (List.mem_cons_self _ _)
    · exact List.mem_cons_of_mem _ (List.mem_cons_of_mem _ h)

lemma listMax_mem (l : List ℚ) (h : l ≠ []) : listMax l ∈ l := by
  cases l with
  | nil => exact absurd rfl h
  | cons a xs => rw [listMax]; exact foldl_max_mem xs a

/-- The min-max normalization applied to one score (the common factor
of both branches of `normalizeScores`). -/
def normFun (raw : List ℚ) (s : ℚ) : ℚ :=
  if 0 < listMax raw - listMin raw then (s - listMin raw) / (listMax raw - listMin raw)
  else 1

lemma normalizeScores_eq_map (raw : List ℚ) :
    normalizeScores raw = raw.map (normFun raw) := by
  rw [normalizeScores]
  split
  case isTrue h =>
    apply List.map_congr_left
    intro s _
    rw [normFun, if_pos h]
  case isFalse h =>
    apply List.map_congr_left
    intro s _
    rw [normFun, if_neg h]

lemma zip_map_self {α β : Type} (l : List α) (g : α → β) :
    l.zip (l.map g) = l.map (fun x => (x, g x)) := by
  induction l with
  | nil => rfl
  | cons a xs ih => rw [List.map_cons, List.zip_cons_cons, ih, List.map_cons]

lemma normalizeStage_eq_map (method : String) (l : List Cand) :
    normalizeStage method l = l.map (fun c =>
      ⟨c.text, c.source, 1 - normFun (l.map Cand.score) c.score,
        c.sectionKey.getD "", method⟩) := by
  rw [normalizeStage]
  cases hl : l with
  | nil => rfl
  | cons c0 rest =>
    rw [← hl, if_neg (by rw [hl]; simp), normalizeScores_eq_map, List.map_map,
      zip_map_self, List.map_map]
    apply List.map_congr_left
    intro c _
    rfl

lemma normFun_bounds (raw : List ℚ) (s : ℚ) (h : s ∈ raw) :
    0 ≤ normFun raw s ∧ normFun raw s ≤ 1 := by
  rw [normFun]
  split
  case isTrue hpos =>
    constructor
    · apply div_nonneg _ (le_of_lt hpos)
      have := listMin_le raw s h
      linarith
    · rw [div_le_one hpos]
      have := le_listMax raw s h
      linarith
  case isFalse hpos => exact ⟨zero_le_one, le_refl 1⟩

lemma normFun_mono (raw : List ℚ) (s t : ℚ) (h : s ≤ t) :
    normFun raw s ≤ normFun raw t := by
  rw [normFun, normFun]
  split
  case isTrue hpos =>
    have h2 : s - listMin raw ≤ t - listMin raw := by linarith
    exact div_le_div_of_le_of_nonneg h2 (le_of_lt hpos)
  case isFalse hpos => exact le_refl 1

lemma rerank_sorted (ce : String → String → ℚ) (query : String)
    (candidates : List Cand) (topK : ℕ) :
    (rerank ce query candidates topK).Pairwise (fun a b => b.score ≤ a.score) := by
  rw [rerank]
  split
  · exact List.Pairwise.nil
  · exact ((List.sorted_insertionSort (byKeyDesc Cand.score) _).sublist
      (List.take_sublist _ _))


/-- C2: for every search call, every returned distance lies in `[0, 1]`,
distances are non-decreasing in the returned order (position 0 most
relevant), each distance is `1 - normalized_score` under min-max scaling
of the rerank scores, and when all rerank scores are identical every
distance is `0` (all results normalized to `1.0`) instead of a
division-by-zero error. -/
theorem c2_distance_normalization (d : BM25Data)
    (getScores : List (List String) → List String → List ℚ)
    (vdocs : List String) (vmetas : List (Option String)) (vdists : List ℚ)
    (vids : List String) (ce : String → String → ℚ) (query : String) (nResults : ℕ)
    (hne : search d getScores vdocs vmetas vdists vids ce query nResults ≠ []) :
    (∀ r ∈ search d getScores vdocs vmetas vdists vids ce query nResults,
      0 ≤ r.distance ∧ r.distance ≤ 1) ∧
    (search d getScores vdocs vmetas vdists vids ce query nResults).Pairwise
      (fun a b => a.distance ≤ b.distance) ∧
    ((∀ a ∈ searchReranked d getScores vdocs vmetas vdists vids ce query nResults,
      ∀ b ∈ searchReranked d getScores vdocs vmetas vdists vids ce query nResults,
        a.score = b.score) →
      ∀ r ∈ search d getScores vdocs vmetas vdists vids ce query nResults,
        r.distance = 0) ∧
    (search d getScores vdocs vmetas vdists vids ce query nResults).map
        FinalResult.distance =
      (normalizeScores ((searchReranked d getScores vdocs vmetas vdists vids ce query
        nResults).map Cand.score)).map (fun v => 1 - v) := by
  set R := searchReranked d getScores vdocs vmetas vdists vids ce query nResults with hR
  set raw := R.map Cand.score with hraw
  have hsearch : search d getScores vdocs vmetas vdists vids ce query nResults =
      R.map (fun c => ⟨c.text, c.source, 1 - normFun raw c.score,
        c.sectionKey.getD "", searchMethod d getScores query⟩) := by
    rw [search, normalizeStage_eq_map]
  refine ⟨?_, ?_, ?_, ?_⟩
  · intro r hr
    rw [hsearch, List.mem_map] at hr
    obtain ⟨c, hc, hceq⟩ := hr
    have hsc : c.score ∈ raw := by
      rw [hraw]
      exact List.mem_map_of_mem Cand.score hc
    obtain ⟨h0, h1⟩ := normFun_bounds raw c.score hsc
    rw [← hceq]
    constructor <;> dsimp only <;> linarith
  · rw [hsearch]
    rw [List.pairwise_map]
    have hsorted : R.Pairwise (fun a b => b.score ≤ a.score) := rerank_sorted ce query _ _
    apply hsorted.imp
    intro a b hab
    have := normFun_mono raw b.score a.score hab
    dsimp only
    linarith
  · intro hall r hr
    rw [hsearch, List.mem_map] at hr
    obtain ⟨c, hc, hceq⟩ := hr
    have hRne : R ≠ [] := by
      intro h
      rw [h] at hc
      exact List.not_mem_nil c hc
    have hrawne : raw ≠ [] := by
      rw [hraw]
      simpa using hRne
    have hminmax : listMax raw = listMin raw := by
      have hmin := listMin_mem raw hrawne
      have hmax := listMax_mem raw hrawne
      rw [hraw] at hmin hmax
      rw [List.mem_map] at hmin hmax
      obtain ⟨cmin, hcmin, hcmineq⟩ := hmin
      obtain ⟨cmax, hcmax, hcmaxeq⟩ := hmax
      rw [← hcmineq, ← hcmaxeq, hall cmax hcmax cmin hcmin]
    have hnf : normFun raw c.score = 1 := by
      rw [normFun, if_neg]
      rw [hminmax]
      simp
    rw [← hceq]
    dsimp only
    rw [hnf]
    ring
  · rw [hsearch, normalizeScores_eq_map, List.map_map, List.map_map, List.map_map]
    rfl

/-- Witness for C2 at the concrete search run. -/
theorem c2_distance_normalization_witness :
    search ⟨none, [], [], []⟩ (fun _ _ => []) ["v1"] [] [] [] (fun _ _ => 0) "q" 5 ≠ [] ∧
    (∀ r ∈ search ⟨none, [], [], []⟩ (fun _ _ => []) ["v1"] [] [] [] (fun _ _ => 0) "q" 5,
      0 ≤ r.distance ∧ r.distance ≤ 1) ∧
    ((∀ a ∈ searchReranked ⟨none, [], [], []⟩ (fun _ _ => []) ["v1"] [] [] []
        (fun _ _ => 0) "q" 5,
      ∀ b ∈ searchReranked ⟨none, [], [], []⟩ (fun _ _ => []) ["v1"] [] [] []
        (fun _ _ => 0) "q" 5, a.score = b.score) →
      ∀ r ∈ search ⟨none, [], [], []⟩ (fun _ _ => []) ["v1"] [] [] [] (fun _ _ => 0) "q" 5,
        r.distance = 0) :=
  have hne : search ⟨none, [], [], []⟩ (fun _ _ => []) ["v1"] [] [] []
      (fun _ _ => 0) "q" 5 ≠ [] := by
    rw [searchw_run]
    simp
  ⟨hne,
    (c2_distance_normalization ⟨none, [], [], []⟩ (fun _ _ => []) ["v1"] [] [] []
      (fun _ _ => 0) "q" 5 hne).1,
    (c2_distance_normalization ⟨none, [], [], []⟩ (fun _ _ => []) ["v1"] [] [] []
      (fun _ _ => 0) "q" 5 hne).2.2.1⟩


/-! ## C7: reciprocal rank fusion -/

/-- The specified fused score of a document key: over every input list,
the sum of `1 / (k + rank)` at each 1-based rank where the key occurs
(0 for lists that do not contain it). -/
def rrfSpecScore (results_list : List (List Cand)) (k : ℕ) (key : String) : ℚ :=
  (results_list.map (fun results =>
    (results.enum.map (fun p =>
      if docKey p.2 = key then 1 / ((k : ℚ) + (p.1 + 1)) else 0)).sum)).sum

lemma lookupQ_cons (k1 : String) (v1 : ℚ) (rest : List (String × ℚ)) (key : String) :
    lookupQ ((k1, v1) :: rest) key = if key = k1 then v1 else lookupQ rest key := by
  rw [lookupQ, List.lookup]
  cases hbeq : (key == k1) with
  | true => rw [if_pos (beq_iff_eq.mp hbeq)]; rfl
  | false =>
    rw [if_neg (by simpa using hbeq)]
    rfl

lemma lookupQ_bumpScore (key2 : String) :
    ∀ (m : List (String × ℚ)) (key : String) (v : ℚ),
      lookupQ (bumpScore m key v) key2 =
        lookupQ m key2 + (if key2 = key then v else 0) := by
  intro m
  induction m with
  | nil =>
    intro key v
    rw [bumpScore, lookupQ_cons]
    by_cases h : key2 = key
    · rw [if_pos h, if_pos h]
      show v = lookupQ [] key2 + v
      rw [show lookupQ [] key2 = 0 from rfl]
      ring
    · rw [if_neg h, if_neg h]
      show lookupQ [] key2 = lookupQ [] key2 + 0
      ring
  | cons p rest ih =>
    intro key v
    obtain ⟨k1, v1⟩ := p
    rw [bumpScore]
    by_cases hk : k1 = key
    · rw [if_pos hk]
      rw [lookupQ_cons, lookupQ_cons]
      by_cases h2 : key2 = k1
      · rw [if_pos h2, if_pos h2, if_pos (h2.trans hk)]
      · rw [if_neg h2, if_neg h2]
        rw [if_neg (fun hc => h2 (hc.trans hk.symm))]
        ring
    · rw [if_neg hk]
      rw [lookupQ_cons, lookupQ_cons]
      by_cases h2 : key2 = k1
      · rw [if_pos h2, if_pos h2]
        have hne : key2 ≠ key := fun hc => hk (h2.symm.trans hc)
        rw [if_neg hne]
        ring
      · rw [if_neg h2, if_neg h2, ih key v]

lemma foldl_pairs_score (k : ℕ) (key : String) :
    ∀ (ps : List (ℕ × Cand)) (st : List (String × ℚ) × List (String × Cand)),
      lookupQ ((ps.foldl (fun st p =>
        (bumpScore st.1 (docKey p.2) (1 / ((k : ℚ) + (p.1 + 1))),
          mapInsert st.2 (docKey p.2) p.2)) st).1) key =
      lookupQ st.1 key +
        (ps.map (fun p => if docKey p.2 = key then 1 / ((k : ℚ) + (p.1 + 1)) else 0)).sum := by
  intro ps
  induction ps with
  | nil => intro st; simp
  | cons p ps ih =>
    intro st
    rw [List.foldl_cons, ih, List.map_cons, List.sum_cons]
    dsimp only
    rw [lookupQ_bumpScore]
    have hsw : (if key = docKey p.2 then 1 / ((k : ℚ) + (p.1 + 1)) else 0)
        = (if docKey p.2 = key then 1 / ((k : ℚ) + (p.1 + 1)) else 0) := by
      by_cases h : key = docKey p.2
      · rw [if_pos h, if_pos h.symm]
      · rw [if_neg h, if_neg (fun hc => h hc.symm)]
    rw [hsw]
    ring

lemma foldl_lists_score (k : ℕ) (key : String) :
    ∀ (lists : List (List Cand)) (st : List (String × ℚ) × List (String × Cand)),
      lookupQ ((lists.foldl (rrfFold k) st).1) key =
        lookupQ st.1 key + rrfSpecScore lists k key := by
  intro lists
  induction lists with
  | nil => intro st; simp [rrfSpecScore]
  | cons l ls ih =>
    intro st
    rw [List.foldl_cons, ih]
    have hcons : rrfSpecScore (l :: ls) k key =
        (l.enum.map (fun p =>
          if docKey p.2 = key then 1 / ((k : ℚ) + (p.1 + 1)) else 0)).sum +
          rrfSpecScore ls k key := by
      rw [rrfSpecScore, List.map_cons, List.sum_cons, rrfSpecScore]
    have h1 : lookupQ ((rrfFold k st l).1) key = lookupQ st.1 key +
        (l.enum.map (fun p =>
          if docKey p.2 = key then 1 / ((k : ℚ) + (p.1 + 1)) else 0)).sum := by
      rw [rrfFold, foldl_pairs_score]
    rw [hcons, h1]
    ring


lemma docKey_score_update (c : Cand) (x : ℚ) : docKey { c with score := x } = docKey c := rfl

lemma mapInsert_lookup_self (key : String) (c : Cand) :
    ∀ m : List (String × Cand), (List.lookup key (mapInsert m key c)).isSome := by
  intro m
  induction m with
  | nil =>
    rw [mapInsert, List.lookup]
    simp
  | cons p rest ih =>
    rw [mapInsert]
    split
    case isTrue h =>
      rw [List.lookup, ← h]
      simp
    case isFalse h =>
      rw [List.lookup]
      cases hbeq : (key == p.1) with
      | true => simp
      | false => exact ih

lemma mapInsert_lookup_mono (key2 key : String) (c : Cand) :
    ∀ m : List (String × Cand), (List.lookup key2 m).isSome →
      (List.lookup key2 (mapInsert m key c)).isSome := by
  intro m
  induction m with
  | nil => intro h; exact absurd h (by simp [List.lookup])
  | cons p rest ih =>
    intro h
    rw [mapInsert]
    split
    case isTrue heq => exact h
    case isFalse heq =>
      rw [List.lookup] at h ⊢
      cases hbeq : (key2 == p.1) with
      | true => simp
      | false =>
        rw [hbeq] at h
        exact ih h

lemma bumpScore_keys : ∀ (m : List (String × ℚ)) (key : String) (v : ℚ),
    (bumpScore m key v).map Prod.fst =
      if key ∈ m.map Prod.fst then m.map Prod.fst else m.map Prod.fst ++ [key] := by
  intro m
  induction m with
  | nil => intro key v; simp [bumpScore]
  | cons p rest ih =>
    intro key v
    rw [bumpScore]
    split
    case isTrue h =>
      rw [if_pos]
      · simp
      · rw [List.map_cons, h]
        exact List.mem_cons_self _ _
    case isFalse h =>
      rw [List.map_cons, List.map_cons, ih key v]
      by_cases hin : key ∈ rest.map Prod.fst
      · rw [if_pos hin, if_pos (List.mem_cons_of_mem _ hin)]
      · rw [if_neg hin, if_neg ?_]
        · simp
        · intro hc
          rcases List.mem_cons.mp hc with h1 | h1
          · exact h h1.symm
          · exact hin h1

lemma mapInsert_keyinv : ∀ (m : List (String × Cand)) (key : String) (c : Cand),
    (∀ kv ∈ m, docKey kv.2 = kv.1) → docKey c = key →
    ∀ kv ∈ mapInsert m key c, docKey kv.2 = kv.1 := by
  intro m
  induction m with
  | nil =>
    intro key c _ hc kv hkv
    rw [mapInsert] at hkv
    rw [List.mem_singleton.mp hkv]
    exact hc
  | cons p rest ih =>
    intro key c hm hc kv hkv
    rw [mapInsert] at hkv
    split at hkv
    · exact hm kv hkv
    · rcases List.mem_cons.mp hkv with h1 | h1
      · exact hm kv (h1 ▸ List.mem_cons_self p rest)
      · exact ih key c (fun kv2 hkv2 => hm kv2 (List.mem_cons_of_mem p hkv2)) hc kv h1

/-- The state invariant carried through the fusion folds: the score
dict has no duplicate keys, every scored key has a stored dict, and
every stored dict is stored under its own `docKey`. -/
def RrfInv (st : List (String × ℚ) × List (String × Cand)) : Prop :=
  (st.1.map Prod.fst).Nodup ∧
  (∀ key ∈ st.1.map Prod.fst, (List.lookup key st.2).isSome) ∧
  (∀ kv ∈ st.2, docKey kv.2 = kv.1)

lemma rrfStep_inv (k : ℕ) (st : List (String × ℚ) × List (String × Cand))
    (p : ℕ × Cand) (h : RrfInv st) :
    RrfInv (bumpScore st.1 (docKey p.2) (1 / ((k : ℚ) + (p.1 + 1))),
      mapInsert st.2 (docKey p.2) p.2) := by
  obtain ⟨hnd, hsome, hdk⟩ := h
  refine ⟨?_, ?_, ?_⟩
  · rw [bumpScore_keys]
    split
    · exact hnd
    · rename_i hnotin
      rw [List.nodup_append]
      exact ⟨hnd, List.nodup_singleton _, by simpa using hnotin⟩
  · intro key hkey
    rw [bumpScore_keys] at hkey
    by_cases hin : docKey p.2 ∈ st.1.map Prod.fst
    · rw [if_pos hin] at hkey
      exact mapInsert_lookup_mono key _ p.2 st.2 (hsome key hkey)
    · rw [if_neg hin] at hkey
      rcases List.mem_append.mp hkey with h1 | h1
      · exact mapInsert_lookup_mono key _ p.2 st.2 (hsome key h1)
      · rw [List.mem_singleton.mp h1]
        exact mapInsert_lookup_self _ p.2 st.2
  · exact mapInsert_keyinv st.2 _ p.2 hdk rfl

lemma rrfFold_inv (k : ℕ) :
    ∀ (ps : List (ℕ × Cand)) (st : List (String × ℚ) × List (String × Cand)),
      RrfInv st →
      RrfInv (ps.foldl (fun st p =>
        (bumpScore st.1 (docKey p.2) (1 / ((k : ℚ) + (p.1 + 1))),
          mapInsert st.2 (docKey p.2) p.2)) st) := by
  intro ps
  induction ps with
  | nil => intro st h; exact h
  | cons p ps ih =>
    intro st h
    rw [List.foldl_cons]
    exact ih _ (rrfStep_inv k st p h)

lemma rrf_state_inv (k : ℕ) :
    ∀ (lists : List (List Cand)) (st : List (String × ℚ) × List (String × Cand)),
      RrfInv st → RrfInv (lists.foldl (rrfFold k) st) := by
  intro lists
  induction lists with
  | nil => intro st h; exact h
  | cons l ls ih =>
    intro st h
    rw [List.foldl_cons]
    exact ih _ (rrfFold_inv k l.enum st h)

/-- The entry emitter of `reciprocal_rank_fusion`: look up the first
stored dict for a key and overwrite its score with the fused score. -/
def rrfEmit (st : List (String × ℚ) × List (String × Cand)) (key : String) : Option Cand :=
  match List.lookup key st.2 with
  | some c => some { c with score := lookupQ st.1 key }
  | none => none

lemma rrf_eq_emit (results_list : List (List Cand)) (k : ℕ) :
    reciprocal_rank_fusion results_list k =
      (((results_list.foldl (rrfFold k) ([], [])).1.map
        Prod.fst).insertionSort (byKeyDesc (lookupQ (results_list.foldl (rrfFold k)
          ([], [])).1))).filterMap (rrfEmit (results_list.foldl (rrfFold k) ([], []))) := rfl

lemma emit_map_docKey (st : List (String × ℚ) × List (String × Cand))
    (hkeyinv : ∀ kv ∈ st.2, docKey kv.2 = kv.1) :
    ∀ (ids : List String), (∀ key ∈ ids, (List.lookup key st.2).isSome) →
      ((ids.filterMap (rrfEmit st)).map docKey) = ids := by
  intro ids
  induction ids with
  | nil => intro _; rfl
  | cons key rest ih =>
    intro hsome
    obtain ⟨c, hc⟩ := Option.isSome_iff_exists.mp (hsome key (List.mem_cons_self key rest))
    rw [List.filterMap_cons]
    rw [show rrfEmit st key = some { c with score := lookupQ st.1 key } from by
      rw [rrfEmit, hc]]
    rw [List.map_cons, ih (fun key2 hk2 => hsome key2 (List.mem_cons_of_mem key hk2))]
    rw [docKey_score_update]
    rw [hkeyinv (key, c) (lookup_mem st.2 key c hc)]

lemma emit_score (st : List (String × ℚ) × List (String × Cand))
    (hkeyinv : ∀ kv ∈ st.2, docKey kv.2 = kv.1) :
    ∀ (ids : List String) (e : Cand), e ∈ ids.filterMap (rrfEmit st) →
      e.score = lookupQ st.1 (docKey e) := by
  intro ids e he
  rw [List.mem_filterMap] at he
  obtain ⟨key, -, hkey⟩ := he
  rw [rrfEmit] at hkey
  cases hlook : List.lookup key st.2 with
  | none => rw [hlook] at hkey; exact absurd hkey (by simp)
  | some c =>
    rw [hlook] at hkey
    dsimp only at hkey
    injection hkey with hkey
    subst hkey
    rw [docKey_score_update, hkeyinv (key, c) (lookup_mem st.2 key c hlook)]

lemma emit_pairwise (st : List (String × ℚ) × List (String × Cand)) :
    ∀ (ids : List String), ids.Pairwise (byKeyDesc (lookupQ st.1)) →
      (ids.filterMap (rrfEmit st)).Pairwise (fun a b => b.score ≤ a.score) := by
  intro ids
  induction ids with
  | nil => intro _; exact List.Pairwise.nil
  | cons key rest ih =>
    intro hpw
    rw [List.filterMap_cons]
    cases hemit : rrfEmit st key with
    | none => exact ih (List.Pairwise.sublist (List.sublist_cons_self key rest) hpw)
    | some e =>
      have hescore : e.score = lookupQ st.1 key := by
        rw [rrfEmit] at hemit
        cases hlook : List.lookup key st.2 with
        | none => rw [hlook] at hemit; exact absurd hemit (by simp)
        | some c =>
          rw [hlook] at hemit
          dsimp only at hemit
          injection hemit with hemit
          subst hemit
          rfl
      refine List.Pairwise.cons ?_ (ih (List.Pairwise.sublist (List.sublist_cons_self key rest) hpw))
      intro e2 he2
      rw [List.mem_filterMap] at he2
      obtain ⟨key2, hk2, hkey2⟩ := he2
      have hescore2 : e2.score = lookupQ st.1 key2 := by
        rw [rrfEmit] at hkey2
        cases hlook : List.lookup key2 st.2 with
        | none => rw [hlook] at hkey2; exact absurd hkey2 (by simp)
        | some c =>
          rw [hlook] at hkey2
          dsimp only at hkey2
          injection hkey2 with hkey2
          subst hkey2
          rfl
      rw [hescore, hescore2]
      exact (List.pairwise_cons.mp hpw).1 key2 hk2

lemma mem_enumFrom_snd {α : Type} (l : List α) (n : ℕ) (p : ℕ × α)
    (h : p ∈ l.enumFrom n) : p.2 ∈ l := by
  have h2 : p.2 ∈ (l.enumFrom n).map Prod.snd := List.mem_map_of_mem Prod.snd h
  rwa [List.enumFrom_map_snd] at h2

lemma rrf_entry_score (results_list : List (List Cand)) (k : ℕ) :
    ∀ e ∈ reciprocal_rank_fusion results_list k,
      e.score = rrfSpecScore results_list k (docKey e) := by
  intro e he
  have hinv : RrfInv (results_list.foldl (rrfFold k) ([], [])) :=
    rrf_state_inv k results_list ([], []) ⟨List.nodup_nil, by simp, by simp⟩
  rw [rrf_eq_emit] at he
  have h1 := emit_score _ hinv.2.2 _ e he
  rw [h1, foldl_lists_score]
  rw [show lookupQ (([], []) : List (String × ℚ) × List (String × Cand)).1 (docKey e) = 0
    from rfl]
  ring

lemma enum_head_sum (k : ℕ) (key : String) (a : Cand) (t : List Cand) :
    ((a :: t).enum.map (fun p =>
      if docKey p.2 = key then 1 / ((k : ℚ) + (p.1 + 1)) else 0)).sum =
    (if docKey a = key then 1 / ((k : ℚ) + 1) else 0) +
      ((t.enumFrom 1).map (fun p =>
        if docKey p.2 = key then 1 / ((k : ℚ) + (p.1 + 1)) else 0)).sum := by
  rw [List.enum_cons, List.map_cons, List.sum_cons]
  norm_num

lemma rrf_terms_nonneg (k : ℕ) (key : String) (l : List (ℕ × Cand)) :
    0 ≤ (l.map (fun p =>
      if docKey p.2 = key then 1 / ((k : ℚ) + (p.1 + 1)) else 0)).sum := by
  apply List.sum_nonneg
  intro x hx
  rw [List.mem_map] at hx
  obtain ⟨p, -, hpeq⟩ := hx
  rw [← hpeq]
  split
  · positivity
  · exact le_refl 0

/-- C7: reciprocal rank fusion (a) assigns every returned entry exactly
the sum over the input lists of `1/(k + rank)` at each 1-based rank
where its key occurs, (b) returns at most one entry per unique key,
(c) returns entries sorted by fused score descending, and (d) gives a
document at rank 1 of both lists a strictly higher fused score than a
document whose only appearance is at rank 1 of a single list, for every
positive k. -/
theorem c7_rrf_fusion :
    (∀ (results_list : List (List Cand)) (k : ℕ),
      ∀ e ∈ reciprocal_rank_fusion results_list k,
        e.score = rrfSpecScore results_list k (docKey e)) ∧
    (∀ (results_list : List (List Cand)) (k : ℕ),
      ((reciprocal_rank_fusion results_list k).map docKey).Nodup) ∧
    (∀ (results_list : List (List Cand)) (k : ℕ),
      (reciprocal_rank_fusion results_list k).Pairwise (fun a b => b.score ≤ a.score)) ∧
    (∀ (k : ℕ), 1 ≤ k →
      ∀ (a : Cand) (t1 : List Cand) (b : Cand) (t2 : List Cand),
        docKey a = docKey b →
        ∀ (c : Cand) (u1 m2 : List Cand),
          docKey c ∉ u1.map docKey → docKey c ∉ m2.map docKey →
          ∀ ea ∈ reciprocal_rank_fusion [a :: t1, b :: t2] k, docKey ea = docKey a →
          ∀ ec ∈ reciprocal_rank_fusion [c :: u1, m2] k, docKey ec = docKey c →
            ec.score < ea.score) := by
  have hscore : ∀ (results_list : List (List Cand)) (k : ℕ),
      ∀ e ∈ reciprocal_rank_fusion results_list k,
        e.score = rrfSpecScore results_list k (docKey e) := rrf_entry_score
  refine ⟨hscore, ?_, ?_, ?_⟩
  · intro results_list k
    have hinv : RrfInv (results_list.foldl (rrfFold k) ([], [])) :=
      rrf_state_inv k results_list ([], []) ⟨List.nodup_nil, by simp, by simp⟩
    rw [rrf_eq_emit]
    rw [emit_map_docKey _ hinv.2.2]
    · exact ((List.perm_insertionSort _ _).nodup_iff).mpr hinv.1
    · intro key hkey
      exact hinv.2.1 key ((List.perm_insertionSort _ _).mem_iff.mp hkey)
  · intro results_list k
    have hinv : RrfInv (results_list.foldl (rrfFold k) ([], [])) :=
      rrf_state_inv k results_list ([], []) ⟨List.nodup_nil, by simp, by simp⟩
    rw [rrf_eq_emit]
    exact emit_pairwise _ _ (List.sorted_insertionSort _ _)
  · intro k hk a t1 b t2 hab c u1 m2 hc1 hc2 ea hea hkeya ec hec hkeyc
    have hea2 := hscore _ k ea hea
    have hec2 := hscore _ k ec hec
    rw [hkeya] at hea2
    rw [hkeyc] at hec2
    have hkpos : (0 : ℚ) < (k : ℚ) + 1 := by positivity
    -- the doubly-ranked document scores at least 2/(k+1)
    have hea3 : 1 / ((k : ℚ) + 1) + 1 / ((k : ℚ) + 1) ≤ ea.score := by
      rw [hea2, rrfSpecScore]
      rw [List.map_cons, List.map_cons, List.map_nil, List.sum_cons, List.sum_cons,
        List.sum_nil]
      have h1 := enum_head_sum k (docKey a) a t1
      have h2 := enum_head_sum k (docKey a) b t2
      rw [h1, h2, if_pos rfl, if_pos hab.symm]
      have hn1 := rrf_terms_nonneg k (docKey a) (t1.enumFrom 1)
      have hn2 := rrf_terms_nonneg k (docKey a) (t2.enumFrom 1)
      linarith
    -- the singly-ranked document scores exactly 1/(k+1)
    have hec3 : ec.score = 1 / ((k : ℚ) + 1) := by
      rw [hec2, rrfSpecScore]
      rw [List.map_cons, List.map_cons, List.map_nil, List.sum_cons, List.sum_cons,
        List.sum_nil]
      rw [enum_head_sum k (docKey c) c u1, if_pos rfl]
      have hz1 : ((u1.enumFrom 1).map (fun p =>
          if docKey p.2 = docKey c then 1 / ((k : ℚ) + (p.1 + 1)) else 0)).sum = 0 := by
        apply List.sum_eq_zero
        intro x hx
        rw [List.mem_map] at hx
        obtain ⟨p, hp, hpeq⟩ := hx
        rw [← hpeq, if_neg]
        intro hdk
        exact hc1 (hdk ▸ List.mem_map_of_mem docKey (mem_enumFrom_snd u1 1 p hp))
      have hz2 : (m2.enum.map (fun p =>
          if docKey p.2 = docKey c then 1 / ((k : ℚ) + (p.1 + 1)) else 0)).sum = 0 := by
        apply List.sum_eq_zero
        intro x hx
        rw [List.mem_map] at hx
        obtain ⟨p, hp, hpeq⟩ := hx
        rw [← hpeq, if_neg]
        intro hdk
        exact hc2 (hdk ▸ List.mem_map_of_mem docKey (mem_enum_snd m2 p hp))
      rw [hz1, hz2]
      ring
    rw [hec3]
    have hhalf : 0 < 1 / ((k : ℚ) + 1) := by positivity
    linarith

lemma c7w_run1 : reciprocal_rank_fusion
    [[⟨"docA", "s", 0, "A", none⟩], [⟨"docA2", "s", 0, "A", none⟩]] 1 =
    [⟨"docA", "s", 1, "A", none⟩] := by
  have hdk1 : docKey ⟨"docA", "s", 0, "A", none⟩ = "A" := by decide
  have hdk2 : docKey ⟨"docA2", "s", 0, "A", none⟩ = "A" := by decide
  norm_num [reciprocal_rank_fusion, rrfFold, bumpScore, mapInsert, hdk1, hdk2,
    lookupQ, List.lookup, List.insertionSort, List.orderedInsert]
  simp [List.filterMap_cons, beq_self_eq_true]

lemma c7w_run2 : reciprocal_rank_fusion [[⟨"docC", "s", 0, "C", none⟩], []] 1 =
    [⟨"docC", "s", 1/2, "C", none⟩] := by
  have hdk : docKey ⟨"docC", "s", 0, "C", none⟩ = "C" := by decide
  norm_num [reciprocal_rank_fusion, rrfFold, bumpScore, mapInsert, hdk,
    lookupQ, List.lookup, List.insertionSort, List.orderedInsert]
  simp [List.filterMap_cons, beq_self_eq_true]

/-- Witness for C7: with `k = 1`, a document at rank 1 of both lists is
fused to score 1, strictly above the 1/2 of a document at rank 1 of a
single list. -/
theorem c7_rrf_fusion_witness :
    (1 ≤ 1) ∧
    docKey (⟨"docA", "s", 0, "A", none⟩ : Cand) =
      docKey (⟨"docA2", "s", 0, "A", none⟩ : Cand) ∧
    (⟨"docA", "s", 1, "A", none⟩ : Cand) ∈ reciprocal_rank_fusion
      [[⟨"docA", "s", 0, "A", none⟩], [⟨"docA2", "s", 0, "A", none⟩]] 1 ∧
    (⟨"docC", "s", 1/2, "C", none⟩ : Cand) ∈ reciprocal_rank_fusion
      [[⟨"docC", "s", 0, "C", none⟩], []] 1 ∧
    (⟨"docC", "s", 1/2, "C", none⟩ : Cand).score <
      (⟨"docA", "s", 1, "A", none⟩ : Cand).score :=
  ⟨le_refl 1, by decide,
   by rw [c7w_run1]; exact List.mem_singleton_self _,
   by rw [c7w_run2]; exact List.mem_singleton_self _,
   c7_rrf_fusion.2.2.2 1 (le_refl 1) ⟨"docA", "s", 0, "A", none⟩ []
     ⟨"docA2", "s", 0, "A", none⟩ [] (by decide) ⟨"docC", "s", 0, "C", none⟩ [] []
     (by decide) (by decide)
     ⟨"docA", "s", 1, "A", none⟩ (by rw [c7w_run1]; exact List.mem_singleton_self _)
     (by decide)
     ⟨"docC", "s", 1/2, "C", none⟩ (by rw [c7w_run2]; exact List.mem_singleton_self _)
     (by decide)⟩
end ResearchAssistant
